import Mathlib

/-!
Verification of the vettore in-memory vector search engine.

The Rust sources are shallowly embedded: `f32` values are modelled as exact
rationals (`ℚ`), the opaque float routines `f32::sqrt` and `f32::exp` are
passed as explicit function parameters (`s` resp. `e`), `u64` words are
modelled as `Nat` (the code never overflows a word: a word is pushed as soon
as 64 bits are filled), hash maps are modelled as association lists, and the
fallible Rust functions returning `Result` are modelled with `Except` or with
an explicit `(state, Option error)` pair mirroring in-place mutation.

The four rational field operations are restored to their definitional
behavior so that the models evaluate on concrete inputs.
-/

set_option allowUnsafeReducibility true

attribute [local semireducible] Rat.add Rat.sub Rat.mul Rat.inv Rat.ofScientific

/- ─────────────────────────  types.rs  ───────────────────────── -/

/-- Model of `types.rs::Distance`. -/
inductive Distance where
  | Euclidean
  | Cosine
  | DotProduct
  | Hnsw
  | Binary
deriving DecidableEq, Repr

/-- Model of `types.rs` metadata maps (`HashMap<String, String>`). -/
abbrev Metadata := List (String × String)

/-- Model of `types.rs::Embedding`. -/
structure Embedding where
  id : String
  vector : List ℚ
  metadata : Option Metadata
  binary : Option (List Nat)
deriving DecidableEq, Repr

/- ───────────────  distances.rs / simd_utils.rs  ─────────────── -/

/-- Model of `distances.rs::clamp_0_1`. -/
def clamp_0_1 (val : ℚ) : ℚ :=
  if val < 0 then 0 else if val > 1 then 1 else val

/-- Sum of squared component differences (the SIMD lanes of
`simd_euclidean_distance` regroup the very same exact sum; `zip` truncates to
the shorter length exactly as `let len = a.len().min(b.len())` does). -/
def sumSqDiff (a b : List ℚ) : ℚ :=
  ((a.zip b).map (fun p => (p.1 - p.2) * (p.1 - p.2))).sum

/-- Model of `distances.rs::simd_euclidean_distance`; `s` stands for
`f32::sqrt`. -/
def simd_euclidean_distance (s : ℚ → ℚ) (a b : List ℚ) : ℚ :=
  s (sumSqDiff a b)

/-- Model of `distances.rs::simd_dot_product` (exact sum over the min-length
prefix, as for `sumSqDiff`). -/
def simd_dot_product (a b : List ℚ) : ℚ :=
  ((a.zip b).map (fun p => p.1 * p.2)).sum

/-- Sum of squares of a vector (the accumulator of
`simd_utils.rs::normalize_vec`). -/
def sumSq (v : List ℚ) : ℚ :=
  (v.map (fun x => x * x)).sum

/-- `std::f32::EPSILON` = 2⁻²³. -/
def f32_epsilon : ℚ := 1 / 2 ^ 23

/-- Model of `simd_utils.rs::normalize_vec`; `s` stands for `f32::sqrt`. -/
def normalize_vec (s : ℚ → ℚ) (v : List ℚ) : List ℚ :=
  let norm := s (sumSq v)
  if norm > f32_epsilon then v.map (fun x => x / norm) else v

/-- Sign bit of a component: 1 iff the value is ≥ 0 (`if v >= 0.0`). -/
def signBit (v : ℚ) : Nat :=
  if 0 ≤ v then 1 else 0

/-- Loop body of `distances.rs::compress_vector`: `cur` is the word being
filled (`current <<= 1; if v >= 0.0 { current |= 1 }` is `2*cur + signBit v`
because the shifted-in low bit is zero), `filled` counts its bits. -/
def compressGo : List ℚ → Nat → Nat → List Nat
  | [], cur, filled => if 0 < filled then [cur * 2 ^ (64 - filled)] else []
  | v :: rest, cur, filled =>
    let cur2 := 2 * cur + signBit v
    if filled + 1 = 64 then cur2 :: compressGo rest 0 0
    else compressGo rest cur2 (filled + 1)

/-- Model of `distances.rs::compress_vector`. -/
def compress_vector (v : List ℚ) : List Nat :=
  compressGo v 0 0

/-- Binary-digit loop for the population count; the fuel is the number of
bits still to examine. -/
def popCountAux : Nat → Nat → Nat
  | 0, _ => 0
  | fuel + 1, n => if n = 0 then 0 else n % 2 + popCountAux fuel (n / 2)

/-- Population count of a machine word (model of `u64::count_ones`): 64 digit
steps cover every `u64` value. -/
def popCount (n : Nat) : Nat :=
  popCountAux 64 n

/-- Model of `distances.rs::hamming_distance`. -/
def hamming_distance (a b : List Nat) : Nat :=
  ((a.zip b).map (fun p => popCount (p.1 ^^^ p.2))).sum

/- ─────────────────────────  hnsw.rs  ───────────────────────── -/

/-- `hnsw.rs` constant `M`. -/
def M : Nat := 16
/-- `hnsw.rs` constant `M0` (layer-0 width). -/
def M0 : Nat := 32
/-- `hnsw.rs` constant `EF_CONSTRUCTION`. -/
def EF_CONSTRUCTION : Nat := 100
/-- `hnsw.rs` constant `EF_SEARCH`. -/
def EF_SEARCH : Nat := 64
/-- `hnsw.rs` constant `MAX_LEVEL`. -/
def MAX_LEVEL : Nat := 12

/-- Model of `hnsw.rs::Node`. -/
structure HnswNode where
  vector : List ℚ
  connections : List (List Nat)
  layer : Nat
deriving DecidableEq, Repr

/-- Model of `hnsw.rs::HnswIndex`; the `HashMap<usize, Node>` is an
association list in insertion order (`HashMap` iteration order is arbitrary,
the model fixes one). -/
structure HnswIndex where
  nodes : List (Nat × HnswNode)
  entry : Option Nat
deriving DecidableEq, Repr

/-- `self.nodes.get(&id)`. -/
def nodesLookup (idx : HnswIndex) (id : Nat) : Option HnswNode :=
  idx.nodes.lookup id

/-- `self.nodes.get_mut(&id)` followed by an update of that node. -/
def updateNode (idx : HnswIndex) (id : Nat) (f : HnswNode → HnswNode) : HnswIndex :=
  { idx with nodes := idx.nodes.map (fun p => if p.1 = id then (p.1, f p.2) else p) }

/-- Pop the first element of least distance (a `BinaryHeap<Neighbor>` pop:
the reversed `Ord` on `Neighbor` makes the heap a min-heap by distance;
which of several equal-distance elements is popped is internal to the heap,
the model takes the first). -/
def popMinD : List (Nat × ℚ) → Option ((Nat × ℚ) × List (Nat × ℚ))
  | [] => none
  | x :: xs =>
    match popMinD xs with
    | none => some (x, [])
    | some (m, rest) => if x.2 ≤ m.2 then some (x, xs) else some (m, x :: rest)

/-- `res.peek().map(|n| n.dist)`: because of the reversed `Ord` this is the
smallest distance in `res` (`None` plays the role of `f32::INFINITY`). -/
def minDist? : List (Nat × ℚ) → Option ℚ
  | [] => none
  | x :: xs =>
    match minDist? xs with
    | none => some x.2
    | some m => some (min x.2 m)

/-- `res.pop()`: evict the element the reversed `Ord` ranks greatest, i.e.
the one of least distance. -/
def evictMin (l : List (Nat × ℚ)) : List (Nat × ℚ) :=
  match popMinD l with
  | none => []
  | some (_, rest) => rest

/-- `cur.dist > worst` where `worst` is `res.peek().map_or(f32::INFINITY, …)`. -/
def gtWorst (d : ℚ) : Option ℚ → Bool
  | none => false
  | some w => decide (d > w)

/-- `res.len() < ef || dist < worst` (the `worst` captured at the top of the
loop iteration in `hnsw.rs::search_layer`). -/
def pushCond (resLen ef : Nat) (d : ℚ) : Option ℚ → Bool
  | none => decide (resLen < ef) || true
  | some w => decide (resLen < ef) || decide (d < w)

/-- Neighbor scan of one `search_layer` loop iteration (`for &nb in
&node.connections[layer]`), threading `(visited, cand, res)`. -/
def processNeighbors (s : ℚ → ℚ) (idx : HnswIndex) (q : List ℚ) (worst : Option ℚ)
    (ef : Nat) :
    List Nat → List Nat × List (Nat × ℚ) × List (Nat × ℚ) →
      List Nat × List (Nat × ℚ) × List (Nat × ℚ)
  | [], st => st
  | nb :: rest, (visited, cand, res) =>
    if nb ∈ visited then processNeighbors s idx q worst ef rest (visited, cand, res)
    else
      let visited' := nb :: visited
      match nodesLookup idx nb with
      | none => processNeighbors s idx q worst ef rest (visited', cand, res)
      | some nbNode =>
        let d := simd_euclidean_distance s nbNode.vector q
        if pushCond res.length ef d worst then
          let res' := (nb, d) :: res
          let res'' := if res'.length > ef then evictMin res' else res'
          processNeighbors s idx q worst ef rest (visited', (nb, d) :: cand, res'')
        else
          processNeighbors s idx q worst ef rest (visited', cand, res)

/-- The `while let Some(cur) = cand.pop()` loop of `hnsw.rs::search_layer`,
with explicit fuel (`none` would mean the fuel ran out; the termination
theorem shows the canonical fuel never does). -/
def searchLayerGo (s : ℚ → ℚ) (idx : HnswIndex) (q : List ℚ) (layer ef : Nat) :
    Nat → List (Nat × ℚ) → List (Nat × ℚ) → List Nat → Option (List (Nat × ℚ))
  | 0, _, _, _ => none
  | fuel + 1, cand, res, visited =>
    match popMinD cand with
    | none => some res
    | some (cur, cand') =>
      let worst := minDist? res
      if gtWorst cur.2 worst then some res
      else
        match nodesLookup idx cur.1 with
        | none => searchLayerGo s idx q layer ef fuel cand' res visited
        | some node =>
          if node.connections.length ≤ layer then
            searchLayerGo s idx q layer ef fuel cand' res visited
          else
            let st := processNeighbors s idx q worst ef (node.connections.getD layer [])
              (visited, cand', res)
            searchLayerGo s idx q layer ef fuel st.2.1 st.2.2 st.1

/-- Fuel that always suffices for `searchLayerGo` (proved below). -/
def searchLayerFuel (idx : HnswIndex) : Nat :=
  2 * idx.nodes.length + 2

/-- Model of `hnsw.rs::HnswIndex::search_layer`.  The result heap is turned
into a vector via `into_sorted_vec`, which under the reversed `Ord` lists
neighbors by descending distance. -/
def search_layer (s : ℚ → ℚ) (idx : HnswIndex) (q : List ℚ)
    (entry layer ef : Nat) : Option (List (Nat × ℚ)) :=
  match nodesLookup idx entry with
  | none => some []
  | some en =>
    let d0 := simd_euclidean_distance s en.vector q
    (searchLayerGo s idx q layer ef (searchLayerFuel idx)
        [(entry, d0)] [(entry, d0)] [entry]).map
      (fun res => res.insertionSort (fun a b => b.2 ≤ a.2))

/-- One pass of the greedy-descent `loop` in `hnsw.rs::HnswIndex::search`:
scan the neighbors of the current entry at `layer`, moving to each strictly
closer one; the Bool records `moved` (`false` also models the `break` when
the current entry is missing from the node map). -/
def descendPass (s : ℚ → ℚ) (idx : HnswIndex) (q : List ℚ) (layer : Nat)
    (st : Nat × ℚ) : (Nat × ℚ) × Bool :=
  match nodesLookup idx st.1 with
  | none => (st, false)
  | some node =>
    let neigh := if layer < node.connections.length then node.connections.getD layer [] else []
    neigh.foldl
      (fun (acc : (Nat × ℚ) × Bool) nb =>
        match nodesLookup idx nb with
        | none => acc
        | some nbNode =>
          let d := simd_euclidean_distance s nbNode.vector q
          if d < acc.1.2 then ((nb, d), true) else acc)
      (st, false)

/-- The per-layer `loop { … if !moved { break } }` with explicit fuel. -/
def descendLoop (s : ℚ → ℚ) (idx : HnswIndex) (q : List ℚ) (layer : Nat) :
    Nat → Nat × ℚ → Option (Nat × ℚ)
  | 0, _ => none
  | fuel + 1, st =>
    let (st', moved) := descendPass s idx q layer st
    if moved then descendLoop s idx q layer fuel st' else some st'

/-- Fuel that always suffices for one `descendLoop` (proved below). -/
def descendFuel (idx : HnswIndex) : Nat :=
  idx.nodes.length + 1

/-- `for layer in (1..=top_layer).rev()` of `hnsw.rs::HnswIndex::search`. -/
def descendLayers (s : ℚ → ℚ) (idx : HnswIndex) (q : List ℚ) :
    List Nat → Nat × ℚ → Option (Nat × ℚ)
  | [], st => some st
  | layer :: rest, st =>
    match descendLoop s idx q layer (descendFuel idx) st with
    | none => none
    | some st' => descendLayers s idx q rest st'

/-- Layers `top, top-1, …, 1`. -/
def upperLayers (top : Nat) : List Nat :=
  ((List.range top).map (· + 1)).reverse

/-- Model of `hnsw.rs::HnswIndex::search` (fuelled; `none` only if some fuel
ran out, which the termination theorem below rules out). -/
def hnswSearchF (s : ℚ → ℚ) (idx : HnswIndex) (q : List ℚ) (k : Nat) :
    Option (List (Nat × ℚ)) :=
  match idx.entry with
  | none => some []
  | some ep =>
    match nodesLookup idx ep with
    | none => some []
    | some en =>
      let d0 := simd_euclidean_distance s en.vector q
      match descendLayers s idx q (upperLayers en.layer) (ep, d0) with
      | none => none
      | some st =>
        match search_layer s idx q st.1 0 EF_SEARCH with
        | none => none
        | some best =>
          let sorted := best.insertionSort (fun a b => a.2 ≤ b.2)
          some ((sorted.take k))

/-- Total version of the search used by the wrapper. -/
def hnswSearch (s : ℚ → ℚ) (idx : HnswIndex) (q : List ℚ) (k : Nat) :
    List (Nat × ℚ) :=
  (hnswSearchF s idx q k).getD []

/-- One step of the greedy descent in `hnsw.rs::HnswIndex::add`
(`search_layer(ep, &vector, layer, 1)?.into_iter().next()`; the head of the
descending `into_sorted_vec` order). -/
def addDescendStep (s : ℚ → ℚ) (idx : HnswIndex) (vector : List ℚ)
    (st : Nat × ℚ) (layer : Nat) : Nat × ℚ :=
  match ((search_layer s idx vector st.1 layer 1).getD []).head? with
  | none => st
  | some best => if best.2 < st.2 then (best.1, best.2) else st

/-- `cand.dedup_by_key(|n| n.id)` removes only consecutive id-duplicates,
keeping the first of each run. -/
def dedupGo (prev : Nat) : List (Nat × ℚ) → List (Nat × ℚ)
  | [] => []
  | y :: rest => if y.1 = prev then dedupGo prev rest else y :: dedupGo y.1 rest

/-- Model of `Vec::dedup_by_key` on the id. -/
def dedupByIdConsec : List (Nat × ℚ) → List (Nat × ℚ)
  | [] => []
  | x :: rest => x :: dedupGo x.1 rest

/-- Model of `hnsw.rs::HnswIndex::prune_node_layer`. -/
def prune_node_layer (s : ℚ → ℚ) (idx : HnswIndex) (node_id layer : Nat) :
    HnswIndex :=
  match nodesLookup idx node_id with
  | none => idx
  | some n =>
    let limit := if layer = 0 then M0 else M
    let scored := (n.connections.getD layer []).filterMap (fun nid =>
      (nodesLookup idx nid).map
        (fun nbr => (nid, simd_euclidean_distance s nbr.vector n.vector)))
    let scored := scored.insertionSort (fun a b => a.2 ≤ b.2)
    let newConn := (scored.take limit).map Prod.fst
    updateNode idx node_id
      (fun nd => { nd with connections := nd.connections.set layer newConn })

/-- Symmetric-link pass of `hnsw.rs::HnswIndex::add`: push the new id onto
each selected neighbor's layer list (guarding against duplicate edges) and
remember which neighbors to prune. -/
def linkBack (idx : HnswIndex) (id layer : Nat) (cand : List (Nat × ℚ)) :
    HnswIndex × List Nat :=
  cand.foldl
    (fun (acc : HnswIndex × List Nat) nb =>
      match nodesLookup acc.1 nb.1 with
      | none => acc
      | some n =>
        if layer < n.connections.length then
          (updateNode acc.1 nb.1
            (fun nd =>
              let c := nd.connections.getD layer []
              { nd with connections :=
                  nd.connections.set layer (if id ∈ c then c else c ++ [id]) }),
            acc.2 ++ [nb.1])
        else acc)
    (idx, [])

/-- The body of `for layer in 0..=node_lvl` in `hnsw.rs::HnswIndex::add`,
threading the index and the new node's connection lists. -/
def addLinkLayer (s : ℚ → ℚ) (id : Nat) (vector : List ℚ) (ep : Nat)
    (st : HnswIndex × List (List Nat)) (layer : Nat) :
    HnswIndex × List (List Nat) :=
  let cand := (search_layer s st.1 vector ep layer EF_CONSTRUCTION).getD []
  let cand := cand.insertionSort (fun a b => a.2 ≤ b.2)
  let cand := dedupByIdConsec cand
  let cand := cand.take (if layer = 0 then M0 else M)
  let conns := st.2.set layer (cand.map Prod.fst)
  let linked := linkBack st.1 id layer cand
  (linked.2.foldl (fun i pid => prune_node_layer s i pid layer) linked.1, conns)

/-- Model of `hnsw.rs::HnswIndex::add`; the randomly drawn level is the
explicit parameter `lvl` and `f32::sqrt` is `s`.  The two `(idx, some …)`
results after the duplicate check model the `expect`/indexing panics on a
missing entry, which the entry invariant proved below rules out. -/
def hnswAdd (s : ℚ → ℚ) (idx : HnswIndex) (id : Nat) (vector : List ℚ)
    (lvl : Nat) : HnswIndex × Option String :=
  if (nodesLookup idx id).isSome then (idx, some "duplicate id")
  else if idx.nodes.isEmpty then
    ({ nodes := [(id, ⟨vector, List.replicate (lvl + 1) [], lvl⟩)],
       entry := some id }, none)
  else
    match idx.entry with
    | none => (idx, some "entry must exist")
    | some ep0 =>
      match nodesLookup idx ep0 with
      | none => (idx, some "entry node missing")
      | some epNode =>
        let d0 := simd_euclidean_distance s epNode.vector vector
        let st := ((List.range (epNode.layer + 1)).reverse).foldl
          (addDescendStep s idx vector) (ep0, d0)
        let res := (List.range (lvl + 1)).foldl (addLinkLayer s id vector st.1)
          (idx, List.replicate (lvl + 1) [])
        let idx2 : HnswIndex :=
          { res.1 with nodes := res.1.nodes ++ [(id, ⟨vector, res.2, lvl⟩)] }
        match nodesLookup idx2 ep0 with
        | none => (idx2, none)
        | some entryNode =>
          if lvl > entryNode.layer then ({ idx2 with entry := some id }, none)
          else (idx2, none)

/-- Drop `id` from a neighbor's layer list
(`n.connections[layer].retain(|x| *x != id)` under the
`if layer < n.connections.len()` guard). -/
def retainConn (idx : HnswIndex) (nbId layer id : Nat) : HnswIndex :=
  match nodesLookup idx nbId with
  | none => idx
  | some n =>
    if layer < n.connections.length then
      updateNode idx nbId
        (fun nd =>
          let c := (nd.connections.getD layer []).filter (fun x => x ≠ id)
          { nd with connections := nd.connections.set layer c })
    else idx

/-- `self.nodes.iter().max_by_key(|(_, n)| n.layer)`: Rust's `max_by_key`
returns the last maximal element in iteration order. -/
def argmaxLayer (nodes : List (Nat × HnswNode)) : Option Nat :=
  (nodes.foldl
    (fun acc p =>
      match acc with
      | none => some p
      | some b => if p.2.layer ≥ b.2.layer then some p else some b)
    none).map Prod.fst

/-- Model of `hnsw.rs::HnswIndex::remove`. -/
def hnswRemove (idx : HnswIndex) (id : Nat) : HnswIndex × Option String :=
  match nodesLookup idx id with
  | none => (idx, some "node not found")
  | some node =>
    let idx1 : HnswIndex := { idx with nodes := idx.nodes.filter (fun p => p.1 ≠ id) }
    let idx2 := node.connections.enum.foldl
      (fun i p => p.2.foldl (fun i2 nb => retainConn i2 nb p.1 id) i) idx1
    let entry := if idx2.entry = some id then argmaxLayer idx2.nodes else idx2.entry
    ({ idx2 with entry := entry }, none)

/-- Model of `hnsw.rs::HnswIndexWrapper`. -/
structure HnswIndexWrapper where
  index : HnswIndex
  id_map : List (Nat × String)
  next : Nat
deriving DecidableEq, Repr

/-- `HnswIndexWrapper::new`. -/
def wrapperNew : HnswIndexWrapper :=
  { index := { nodes := [], entry := none }, id_map := [], next := 0 }

/-- Model of `hnsw.rs::HnswIndexWrapper::insert` (fresh node id `next`; on an
`add` error nothing else is touched, mirroring the early `?` return). -/
def wrapperInsert (s : ℚ → ℚ) (lvl : Nat) (w : HnswIndexWrapper)
    (value : String) (vector : List ℚ) : HnswIndexWrapper × Option String :=
  let nid := w.next
  match hnswAdd s w.index nid vector lvl with
  | (idx', some e) => ({ w with index := idx' }, some e)
  | (idx', none) =>
    ({ index := idx', id_map := w.id_map ++ [(nid, value)], next := w.next + 1 }, none)

/-- Model of `hnsw.rs::HnswIndexWrapper::search` (the `_dist` argument of the
source is unused there and omitted). -/
def wrapperSearch (s : ℚ → ℚ) (w : HnswIndexWrapper) (q : List ℚ) (k : Nat) :
    Except String (List (String × ℚ)) :=
  Except.ok ((hnswSearch s w.index q k).filterMap (fun p =>
    (w.id_map.lookup p.1).map (fun v => (v, clamp_0_1 (1 / (1 + p.2))))))

/-- Model of `hnsw.rs::HnswIndexWrapper::remove`. -/
def wrapperRemove (w : HnswIndexWrapper) (value : String) :
    HnswIndexWrapper × Option String :=
  match w.id_map.find? (fun p => p.2 == value) with
  | none => (w, some "id not found")
  | some p =>
    match hnswRemove w.index p.1 with
    | (idx', some e) => ({ w with index := idx' }, some e)
    | (idx', none) =>
      ({ index := idx', id_map := w.id_map.filter (fun q => q.1 ≠ p.1),
         next := w.next }, none)

/- ─────────────────────────  db.rs  ───────────────────────── -/

/-- Model of `db.rs::Record`. -/
structure Record where
  vector : List ℚ
  value : String
  metadata : Option Metadata
deriving DecidableEq, Repr

/-- Model of `db.rs::Collection`; the two `HashMap` indexes are association
lists (keys are kept unique by the operations themselves), the flat float
matrix is a single list. -/
structure Collection where
  dimension : Nat
  keep_embeddings : Bool
  distance : Distance
  vectors : List ℚ
  row2value : List (Option String)
  meta : List (Option Metadata)
  binary : List (Option (List Nat))
  comp2row : List (List Nat × Nat)
  value2row : List (String × Nat)
  free : List Nat
  hnsw : Option HnswIndexWrapper
deriving DecidableEq

/-- Model of `str::to_lowercase` (pointwise character lowering; the inputs
of interest are ASCII). -/
def strToLower (s : String) : String :=
  String.mk (s.data.map Char.toLower)

/-- Model of `db.rs::Collection::create_with_distance` (note: this matcher
recognizes exactly five lowercase names, with no aliases). -/
def Collection.create_with_distance (dim : Nat) (dist : String) :
    Except String Collection :=
  let t := strToLower dist
  let mk : Distance → Collection := fun d =>
    { dimension := dim, keep_embeddings := true, distance := d,
      vectors := [], row2value := [], meta := [], binary := [],
      comp2row := [], value2row := [], free := [],
      hnsw := if d = Distance.Hnsw then some wrapperNew else none }
  if t = "euclidean" then .ok (mk .Euclidean)
  else if t = "cosine" then .ok (mk .Cosine)
  else if t = "dot" then .ok (mk .DotProduct)
  else if t = "hnsw" then .ok (mk .Hnsw)
  else if t = "binary" then .ok (mk .Binary)
  else .error "unknown distance"

/-- `Collection::row_count`. -/
def Collection.row_count (c : Collection) : Nat :=
  c.row2value.length

/-- `Collection::value_by_row`. -/
def Collection.value_by_row (c : Collection) (r : Nat) : Option String :=
  c.row2value.getD r none

/-- `Collection::vector_slice`. -/
def Collection.vector_slice (c : Collection) (r : Nat) : List ℚ :=
  (c.vectors.drop (r * c.dimension)).take c.dimension

/-- `Collection::compressed_by_row`. -/
def Collection.compressed_by_row (c : Collection) (r : Nat) : Option (List Nat) :=
  c.binary.getD r none

/-- Model of `Vec::resize(n, 0.0)`. -/
def resizeList (l : List ℚ) (n : Nat) : List ℚ :=
  if l.length ≤ n then l ++ List.replicate (n - l.length) 0 else l.take n

/-- Model of `db.rs::Collection::alloc_row`; `free.pop()` takes the most
recently pushed row, so the free list is modelled head-first. -/
def Collection.alloc_row (c : Collection) : Nat × Collection :=
  match c.free with
  | r :: rest => (r, { c with free := rest })
  | [] =>
    let r := c.row2value.length
    (r, { c with
        row2value := c.row2value ++ [none],
        meta := c.meta ++ [none],
        binary := c.binary ++ [none],
        vectors := resizeList c.vectors ((r + 1) * c.dimension) })

/-- Overwrite `l[off .. off + v.length]` with `v`
(`copy_from_slice` onto the row's stride). -/
def writeSlice (l : List ℚ) (off : Nat) (v : List ℚ) : List ℚ :=
  l.take off ++ v ++ l.drop (off + v.length)

/-- Model of `db.rs::Collection::row_to_record` (the `unwrap` on the value is
only reached for live rows; a missing value is modelled as `""`). -/
def Collection.row_to_record (c : Collection) (row : Nat) : Record :=
  { value := (c.row2value.getD row none).getD ""
    vector :=
      if !c.keep_embeddings && c.distance = Distance.Binary then []
      else c.vector_slice row
    metadata := c.meta.getD row none }

/-- Model of `db.rs::Collection::insert`.  The pair result mirrors in-place
mutation: the returned collection is the state after the call, the `Option`
is the error.  `s` is `f32::sqrt`, `lvl` the level the HNSW insertion would
draw. -/
def Collection.insert (s : ℚ → ℚ) (lvl : Nat) (c : Collection) (value : String)
    (vec : List ℚ) (md : Option Metadata) : Collection × Option String :=
  if vec.length ≠ c.dimension then (c, some "dimension mismatch")
  else if (c.value2row.lookup value).isSome then (c, some "duplicate value")
  else
    let vec := if c.distance = Distance.Cosine then normalize_vec s vec else vec
    let comp := compress_vector vec
    if (c.comp2row.lookup comp).isSome then (c, some "duplicate vector")
    else
      let rc := c.alloc_row
      let row := rc.1
      let c := rc.2
      let c :=
        if c.keep_embeddings || c.distance ≠ Distance.Binary then
          { c with vectors := writeSlice c.vectors (row * c.dimension) vec }
        else c
      let c := { c with
        binary := c.binary.set row (some comp),
        meta := c.meta.set row md,
        row2value := c.row2value.set row (some value),
        comp2row := (comp, row) :: c.comp2row,
        value2row := (value, row) :: c.value2row }
      match c.hnsw with
      | none => (c, none)
      | some h =>
        let hr := wrapperInsert s lvl h value vec
        ({ c with hnsw := some hr.1 }, hr.2)

/-- Model of `db.rs::Collection::get_by_value`. -/
def Collection.get_by_value (c : Collection) (value : String) : Option Record :=
  (c.value2row.lookup value).map c.row_to_record

/-- Model of `db.rs::Collection::get_by_vector`. -/
def Collection.get_by_vector (c : Collection) (vec : List ℚ) : Option Record :=
  if vec.length ≠ c.dimension then none
  else (c.comp2row.lookup (compress_vector vec)).map c.row_to_record

/-- Model of `db.rs::Collection::remove` (note: the row's `binary` slot is
not cleared, only the `comp2row` entry is removed). -/
def Collection.remove (c : Collection) (value : String) :
    Collection × Option String :=
  match c.value2row.lookup value with
  | none => (c, some "value not found")
  | some row =>
    let c := { c with value2row := c.value2row.eraseP (fun p => p.1 == value) }
    let c :=
      match c.binary.getD row none with
      | some comp => { c with comp2row := c.comp2row.eraseP (fun p => p.1 == comp) }
      | none => c
    let c := { c with row2value := c.row2value.set row none, free := row :: c.free }
    match c.hnsw with
    | none => (c, none)
    | some h =>
      let hr := wrapperRemove h value
      ({ c with hnsw := some hr.1 }, hr.2)

/- ──────────────────────  similarity.rs  ────────────────────── -/

/-- Model of `similarity.rs::brute_binary`.  The parallel branch computes the
same pair list, so only one branch is modelled.  Freed rows are filtered by
`compressed_by_row` when building the pairs but by `value_by_row` only after
`take k`. -/
def brute_binary (c : Collection) (q : List ℚ) (k : Nat) :
    Except String (List (String × ℚ)) :=
  let qBits := compress_vector q
  let pairs := (List.range c.row_count).filterMap (fun r =>
    (c.compressed_by_row r).map (fun bits => (r, hamming_distance qBits bits)))
  let sorted := pairs.insertionSort (fun a b => a.2 ≤ b.2)
  Except.ok ((sorted.take k).filterMap (fun p =>
    (c.value_by_row p.1).map (fun v =>
      (v, clamp_0_1 (1 - (p.2 : ℚ) / (q.length : ℚ))))))

/-- Per-row score of `similarity.rs::brute_l2_dot_cos` (`s` = `f32::sqrt`,
`e` = `f32::exp`; the `_ => unreachable!()` arms are modelled as 0, the
caller only dispatches the three named distances here). -/
def bruteScore (s e : ℚ → ℚ) (c : Collection) (q qNormed vec : List ℚ) : ℚ :=
  match c.distance with
  | Distance.Euclidean => 1 / (1 + simd_euclidean_distance s vec q)
  | Distance.Cosine => (simd_dot_product vec qNormed + 1) * (1 / 2)
  | Distance.DotProduct =>
    clamp_0_1 (1 / (1 + e (-(simd_dot_product vec q))))
  | _ => 0

/-- Model of `similarity.rs::brute_l2_dot_cos` (single branch; the Rayon
branch computes the same pairs). -/
def brute_l2_dot_cos (s e : ℚ → ℚ) (c : Collection) (q : List ℚ) (k : Nat) :
    Except String (List (String × ℚ)) :=
  let qNormed := normalize_vec s q
  let pairs := (List.range c.row_count).map (fun r =>
    (r, bruteScore s e c q qNormed (c.vector_slice r)))
  let sorted := pairs.insertionSort (fun a b => b.2 ≤ a.2)
  Except.ok ((sorted.take k).filterMap (fun p =>
    (c.value_by_row p.1).map (fun v => (v, p.2))))

/-- Model of `similarity.rs::similarity_search`. -/
def similarity_search (s e : ℚ → ℚ) (c : Collection) (q : List ℚ) (k : Nat) :
    Except String (List (String × ℚ)) :=
  match c.hnsw with
  | some h => (wrapperSearch s h q k).map (fun v => v.take k)
  | none =>
    match c.distance with
    | Distance.Binary => brute_binary c q k
    | Distance.Euclidean => brute_l2_dot_cos s e c q k
    | Distance.Cosine => brute_l2_dot_cos s e c q k
    | Distance.DotProduct => brute_l2_dot_cos s e c q k
    | _ => Except.error "unsupported distance"

/-- Model of `distances.rs::compute_0_1_score`. -/
def compute_0_1_score (s e : ℚ → ℚ) (query : List ℚ) (emb : Embedding)
    (dist : Distance) : ℚ :=
  match dist with
  | Distance.Euclidean =>
    clamp_0_1 (1 / (1 + simd_euclidean_distance s query emb.vector))
  | Distance.Hnsw =>
    clamp_0_1 (1 / (1 + simd_euclidean_distance s query emb.vector))
  | Distance.Cosine =>
    clamp_0_1 ((simd_dot_product query emb.vector + 1) / 2)
  | Distance.DotProduct =>
    clamp_0_1 (1 / (1 + e (-(simd_dot_product query emb.vector))))
  | Distance.Binary =>
    let qBits := compress_vector query
    let eBits :=
      match emb.binary with
      | some b => b
      | none => compress_vector emb.vector
    let dBits := (hamming_distance qBits eBits : ℚ)
    1 - clamp_0_1 (dBits / (query.length : ℚ))

/- ─────────────────────────  mmr.rs  ───────────────────────── -/

/-- The inner redundancy similarity of `mmr.rs::mmr_rerank` (note: this is
not the §4.2 score mapping; Cosine and Dot-Product use the raw dot product,
Binary uses the Euclidean mapping). -/
def mmrPairSim (s : ℚ → ℚ) (dist : Distance) (cvec svec : List ℚ) : ℚ :=
  match dist with
  | Distance.Euclidean => 1 / (1 + simd_euclidean_distance s cvec svec)
  | Distance.Hnsw => 1 / (1 + simd_euclidean_distance s cvec svec)
  | Distance.Binary => 1 / (1 + simd_euclidean_distance s cvec svec)
  | Distance.Cosine => simd_dot_product cvec svec
  | Distance.DotProduct => simd_dot_product cvec svec

/-- `max { sim(c, s) : s ∈ selected }` with initial value `0.0`; the map
indexings `&vectors[cid]` are total in the model via `getD []`. -/
def mmrMaxSim (pairSim : String → String → ℚ) (selIds : List String)
    (cid : String) : ℚ :=
  if selIds.isEmpty then 0
  else selIds.foldl (fun m sid =>
    let sim := pairSim cid sid
    if sim > m then sim else m) 0

/-- The arg-max scan over the remaining candidates: `best_score` starts at
`f32::MIN`, modelled as `none` (every real score beats it), and only a
strictly greater MMR score displaces the incumbent. -/
def mmrSelectBest (pairSim : String → String → ℚ) (selIds : List String)
    (alpha : ℚ) (cand : List (String × ℚ)) : Option Nat :=
  (cand.enum.foldl
    (fun (acc : Option (Nat × ℚ)) p =>
      let maxSim := mmrMaxSim pairSim selIds p.2.1
      let mmr := alpha * p.2.2 - (1 - alpha) * maxSim
      match acc with
      | none => some (p.1, mmr)
      | some b => if mmr > b.2 then some (p.1, mmr) else some b)
    none).map Prod.fst

/-- The `while selected.len() < final_k && !cand.is_empty()` loop, fuelled by
the initial candidate count (each iteration removes one candidate). -/
def mmrLoop (pairSim : String → String → ℚ) (alpha : ℚ) (finalK : Nat) :
    Nat → List (String × ℚ) → List (String × ℚ) → List (String × ℚ)
  | 0, _, selected => selected
  | fuel + 1, cand, selected =>
    if selected.length < finalK ∧ ¬cand.isEmpty then
      match mmrSelectBest pairSim (selected.map Prod.fst) alpha cand with
      | some idx =>
        match cand.get? idx with
        | some chosen =>
          mmrLoop pairSim alpha finalK fuel (cand.eraseIdx idx) (selected ++ [chosen])
        | none => selected
      | none => selected
    else selected

/-- Model of `mmr.rs::mmr_rerank`. -/
def mmr_rerank (s : ℚ → ℚ) (initial : List (String × ℚ))
    (vectors : List (String × List ℚ)) (dist : Distance) (alpha : ℚ)
    (finalK : Nat) : List (String × ℚ) :=
  mmrLoop
    (fun cid sid =>
      mmrPairSim s dist ((vectors.lookup cid).getD []) ((vectors.lookup sid).getD []))
    alpha finalK initial.length initial []

/-- Modelled from the spec, §4.6: the same greedy MMR loop but with the
redundancy term `sim(c,s)` computed by the §4.2 score mapping
(`compute_0_1_score` with the collection's distance); used to compare the
source's `mmr_rerank` against the claimed behavior. -/
def spec_mmr_rerank (s e : ℚ → ℚ) (initial : List (String × ℚ))
    (vectors : List (String × List ℚ)) (dist : Distance) (alpha : ℚ)
    (finalK : Nat) : List (String × ℚ) :=
  mmrLoop
    (fun cid sid =>
      compute_0_1_score s e ((vectors.lookup cid).getD [])
        { id := sid, vector := (vectors.lookup sid).getD [],
          metadata := none, binary := none } dist)
    alpha finalK initial.length initial []

/- ─────────────────────────  nifs.rs  ───────────────────────── -/

/-- Model of `nifs.rs::distance_from_str` (the alias-aware parser used only
by the standalone `mmr_rerank_embeddings` NIF). -/
def distance_from_str (dist : String) : Except String Distance :=
  let t := strToLower dist
  if t = "euclidean" ∨ t = "l2" then .ok Distance.Euclidean
  else if t = "cosine" then .ok Distance.Cosine
  else if t = "dot" ∨ t = "dotproduct" then .ok Distance.DotProduct
  else if t = "binary" ∨ t = "hamming" then .ok Distance.Binary
  else if t = "hnsw" then .ok Distance.Hnsw
  else .error "[vettore] unknown distance"

/-- Modelled from the spec, §6: the claimed case-insensitive recognition
table with all aliases, used to compare the creation-time matcher against
the claim. -/
def specDistanceRecognition (dist : String) : Option Distance :=
  let t := strToLower dist
  if t = "euclidean" ∨ t = "l2" then some Distance.Euclidean
  else if t = "cosine" then some Distance.Cosine
  else if t = "dot" ∨ t = "dotproduct" then some Distance.DotProduct
  else if t = "binary" ∨ t = "hamming" then some Distance.Binary
  else if t = "hnsw" then some Distance.Hnsw
  else none

/-- The five names the `create_with_distance` matchers actually accept
(amended recognition table, no aliases). -/
def amendedDistanceRecognition (dist : String) : Option Distance :=
  let t := strToLower dist
  if t = "euclidean" then some Distance.Euclidean
  else if t = "cosine" then some Distance.Cosine
  else if t = "dot" then some Distance.DotProduct
  else if t = "hnsw" then some Distance.Hnsw
  else if t = "binary" then some Distance.Binary
  else none

/- ─────────────────────────  lib.rs  ───────────────────────── -/

/-- Model of `lib.rs::check_vector_dimension`. -/
def lib_check_vector_dimension (vec : List ℚ) (expectedDim : Nat) : Option String :=
  if expectedDim = 0 then some "Collection dimension cannot be 0."
  else if vec.isEmpty then some "Cannot insert an empty embedding vector."
  else if vec.length ≠ expectedDim then
    some ("Dimension mismatch: expected " ++ toString expectedDim ++ ", got "
      ++ toString vec.length)
  else none

/-- Model of `lib.rs::Node` (the `VectorItem` is flattened into its vector;
the duplicated `id` field carries no extra information). -/
structure LibNode where
  vector : List ℚ
  connections : List (List Nat)
  layer : Nat
deriving DecidableEq, Repr

/-- Model of `lib.rs::HnswIndex`. -/
structure LibHnswIndex where
  nodes : List (Nat × LibNode)
  entry_point : Option Nat
deriving DecidableEq, Repr

/-- `self.nodes.get(&id)` on the lib.rs index. -/
def libNodesLookup (idx : LibHnswIndex) (id : Nat) : Option LibNode :=
  idx.nodes.lookup id

/-- `self.nodes.get_mut(&id)` on the lib.rs index. -/
def libUpdateNode (idx : LibHnswIndex) (id : Nat) (f : LibNode → LibNode) :
    LibHnswIndex :=
  { idx with nodes := idx.nodes.map (fun p => if p.1 = id then (p.1, f p.2) else p) }

/-- Model of `lib.rs::HnswIndex::remove`: unlike `hnsw.rs`, the new entry
point after removing the entry is simply the first node the map iteration
yields, not a node of maximal layer. -/
def lib_hnsw_remove (idx : LibHnswIndex) (node_id : Nat) :
    LibHnswIndex × Option String :=
  match libNodesLookup idx node_id with
  | none => (idx, some "Node not found in HNSW index")
  | some node =>
    let idx1 := node.connections.enum.foldl
      (fun i p => p.2.foldl
        (fun i2 nb =>
          match libNodesLookup i2 nb with
          | none => i2
          | some n =>
            if p.1 < n.connections.length then
              libUpdateNode i2 nb
                (fun nd =>
                  let c := (nd.connections.getD p.1 []).filter (fun x => x ≠ node_id)
                  { nd with connections := nd.connections.set p.1 c })
            else i2)
        i)
      idx
    let idx2 : LibHnswIndex :=
      { idx1 with nodes := idx1.nodes.filter (fun p => p.1 ≠ node_id) }
    let e0 := if idx2.entry_point = some node_id then none else idx2.entry_point
    let e1 :=
      match e0 with
      | none => (idx2.nodes.head?).map Prod.fst
      | some e => some e
    ({ idx2 with entry_point := e1 }, none)

/-- Neighbor scan of one `lib.rs::search_layer` iteration; `none` models the
`self.nodes[&nbr]` panic on a stale id; the `worst` bound (`worst2`) is
recomputed for every neighbor, unlike in `hnsw.rs`. -/
def lib_processNeighbors (s : ℚ → ℚ) (idx : LibHnswIndex) (q : List ℚ) (ef : Nat) :
    List Nat → List Nat → List (Nat × ℚ) → List (Nat × ℚ) →
      Option (List Nat × List (Nat × ℚ) × List (Nat × ℚ))
  | [], v, c, r => some (v, c, r)
  | nb :: rest, v, c, r =>
    if nb ∈ v then lib_processNeighbors s idx q ef rest v c r
    else
      match libNodesLookup idx nb with
      | none => none
      | some nbn =>
        let d := simd_euclidean_distance s nbn.vector q
        if pushCond r.length ef d (minDist? r) then
          let r' := (nb, d) :: r
          let r'' := if r'.length > ef then evictMin r' else r'
          lib_processNeighbors s idx q ef rest (nb :: v) ((nb, d) :: c) r''
        else lib_processNeighbors s idx q ef rest (nb :: v) c r

/-- The `while let` loop of `lib.rs::search_layer`; outer `none` = fuel ran
out or a panic was reached. -/
def lib_searchLayerGo (s : ℚ → ℚ) (idx : LibHnswIndex) (q : List ℚ)
    (level ef : Nat) :
    Nat → List (Nat × ℚ) → List (Nat × ℚ) → List Nat → Option (List (Nat × ℚ))
  | 0, _, _, _ => none
  | fuel + 1, cand, res, visited =>
    match popMinD cand with
    | none => some res
    | some (cur, cand') =>
      if gtWorst cur.2 (minDist? res) then some res
      else
        match libNodesLookup idx cur.1 with
        | none => none
        | some node =>
          if level < node.connections.length then
            match lib_processNeighbors s idx q ef (node.connections.getD level [])
                visited cand' res with
            | none => none
            | some st => lib_searchLayerGo s idx q level ef fuel st.2.1 st.2.2 st.1
          else lib_searchLayerGo s idx q level ef fuel cand' res visited

/-- Model of `lib.rs::HnswIndex::search_layer`. -/
def lib_search_layer (s : ℚ → ℚ) (idx : LibHnswIndex) (entry : Nat)
    (q : List ℚ) (level ef : Nat) : Option (Except String (List (Nat × ℚ))) :=
  match libNodesLookup idx entry with
  | none => some (Except.error ("Node not found: " ++ toString entry))
  | some start =>
    if start.connections.length ≤ level then some (Except.ok [])
    else
      let d := simd_euclidean_distance s start.vector q
      (lib_searchLayerGo s idx q level ef (2 * idx.nodes.length + 2)
          [(entry, d)] [(entry, d)] [entry]).map
        (fun res => Except.ok (res.insertionSort (fun a b => b.2 ≤ a.2)))

/-- One pass of the greedy-descent loop in `lib.rs::HnswIndex::search`;
`none` models the `self.nodes[&nbr]` panic. -/
def lib_descendPass (s : ℚ → ℚ) (idx : LibHnswIndex) (q : List ℚ) (level : Nat)
    (st : Nat × ℚ) : Option ((Nat × ℚ) × Bool) :=
  match libNodesLookup idx st.1 with
  | none => some (st, false)
  | some node =>
    if level < node.connections.length then
      (node.connections.getD level []).foldl
        (fun acc nb =>
          match acc with
          | none => none
          | some a =>
            match libNodesLookup idx nb with
            | none => none
            | some nbn =>
              let d := simd_euclidean_distance s nbn.vector q
              if d < a.1.2 then some ((nb, d), true) else some a)
        (some (st, false))
    else some (st, false)

/-- The fuelled `loop { … if !changed break }` of `lib.rs::search`. -/
def lib_descendLoop (s : ℚ → ℚ) (idx : LibHnswIndex) (q : List ℚ) (level : Nat) :
    Nat → Nat × ℚ → Option (Nat × ℚ)
  | 0, _ => none
  | fuel + 1, st =>
    match lib_descendPass s idx q level st with
    | none => none
    | some (st', moved) =>
      if moved then lib_descendLoop s idx q level fuel st' else some st'

/-- `for level in (1..=top_l).rev()` of `lib.rs::search`. -/
def lib_descendLayers (s : ℚ → ℚ) (idx : LibHnswIndex) (q : List ℚ) :
    List Nat → Nat × ℚ → Option (Nat × ℚ)
  | [], st => some st
  | level :: rest, st =>
    match lib_descendLoop s idx q level (idx.nodes.length + 1) st with
    | none => none
    | some st' => lib_descendLayers s idx q rest st'

/-- Model of `lib.rs::HnswIndex::search`. -/
def lib_hnsw_search (s : ℚ → ℚ) (idx : LibHnswIndex) (q : List ℚ) (k : Nat) :
    Option (Except String (List (Nat × ℚ))) :=
  if idx.nodes.isEmpty then some (Except.ok [])
  else
    match idx.entry_point with
    | none => none
    | some ep =>
      match libNodesLookup idx ep with
      | none => none
      | some en =>
        let d0 := simd_euclidean_distance s en.vector q
        match lib_descendLayers s idx q (upperLayers en.layer) (ep, d0) with
        | none => none
        | some st =>
          match lib_search_layer s idx st.1 q 0 EF_SEARCH with
          | none => none
          | some (Except.error e) => some (Except.error e)
          | some (Except.ok results) =>
            let sorted := results.insertionSort (fun a b => a.2 ≤ b.2)
            some (Except.ok ((sorted.take k)))

/-- Model of `lib.rs::HnswIndexWrapper`. -/
structure LibHnswIndexWrapper where
  index : LibHnswIndex
  id_map : List (Nat × String)
  next_id : Nat
deriving DecidableEq, Repr

/-- Model of `lib.rs::HnswIndexWrapper::search` (converts distances to
scores and re-sorts by descending score). -/
def lib_wrapper_search (s : ℚ → ℚ) (w : LibHnswIndexWrapper) (q : List ℚ)
    (k : Nat) : Option (Except String (List (String × ℚ))) :=
  match lib_hnsw_search s w.index q k with
  | none => none
  | some (Except.error e) => some (Except.error e)
  | some (Except.ok results) =>
    let out := results.filterMap (fun p =>
      (w.id_map.lookup p.1).map (fun v => (v, clamp_0_1 (1 / (1 + p.2)))))
    some (Except.ok (out.insertionSort (fun a b => b.2 ≤ a.2)))

/-- Model of `lib.rs::Collection`. -/
structure LibCollection where
  dimension : Nat
  keep_embeddings : Bool
  distance : Distance
  embeddings : List Embedding
  hnsw_index : Option LibHnswIndexWrapper

/-- Model of `lib.rs::Collection::get_similarity` (the outer `Option` is
`none` only on a fuel shortage or modelled panic inside the HNSW branch; the
brute branch reuses `compute_0_1_score`, whose `lib.rs` copy is
semantically identical to the `distances.rs` one). -/
def lib_get_similarity (s e : ℚ → ℚ) (c : LibCollection) (q : List ℚ)
    (k : Nat) : Option (Except String (List (String × ℚ))) :=
  match lib_check_vector_dimension q c.dimension with
  | some err => some (Except.error err)
  | none =>
    match c.distance with
    | Distance.Hnsw =>
      match c.hnsw_index with
      | some w => lib_wrapper_search s w q k
      | none => some (Except.error "No HNSW index found in this collection.")
    | _ =>
      let scored := c.embeddings.map (fun emb =>
        (emb.id, compute_0_1_score s e q emb c.distance))
      some (Except.ok ((scored.insertionSort (fun a b => b.2 ≤ a.2)).take k))

/- ──────────────  invariants and reachability  ────────────── -/

/-- The entry invariant of claim C8 for the `hnsw.rs` index: the entry point
exists iff the node set is non-empty, it is a stored node, and its layer is
maximal. -/
def entryMax (idx : HnswIndex) : Prop :=
  match idx.entry with
  | none => idx.nodes = []
  | some e =>
    idx.nodes ≠ [] ∧
    match nodesLookup idx e with
    | none => False
    | some en => ∀ p ∈ idx.nodes, p.2.layer ≤ en.layer

/-- Index states reachable from the empty `hnsw.rs` index by any sequence of
`add` and `remove` calls (with arbitrary drawn levels and square roots). -/
inductive HnswReachable : HnswIndex → Prop where
  | new : HnswReachable { nodes := [], entry := none }
  | add (s : ℚ → ℚ) (idx : HnswIndex) (id : Nat) (vector : List ℚ) (lvl : Nat) :
      HnswReachable idx → HnswReachable (hnswAdd s idx id vector lvl).1
  | remove (idx : HnswIndex) (id : Nat) :
      HnswReachable idx → HnswReachable (hnswRemove idx id).1

/-- Well-formedness of the wrapper used by claim C2: every node id of the
graph is below the id allocator, and the entry invariant holds. -/
def wrapperInv (w : HnswIndexWrapper) : Prop :=
  (∀ p ∈ w.index.nodes, p.1 < w.next) ∧ entryMax w.index

/-- Collection-level invariant for claim C2. -/
def collectionInv (c : Collection) : Prop :=
  match c.hnsw with
  | none => True
  | some w => wrapperInv w

/-- Row-table well-formedness: free rows are in bounds and the parallel
arrays agree in length (maintained by every collection operation). -/
def rowInv (c : Collection) : Prop :=
  (∀ r ∈ c.free, r < c.row2value.length) ∧
  c.binary.length = c.row2value.length ∧
  c.meta.length = c.row2value.length

/-- Decidable equality for `Except` results, used to evaluate the models on
concrete inputs. -/
def exceptDecEq {ε α : Type} [DecidableEq ε] [DecidableEq α] :
    DecidableEq (Except ε α)
  | Except.error e, Except.error f =>
    if h : e = f then Decidable.isTrue (by rw [h])
    else Decidable.isFalse (by simp [h])
  | Except.error _, Except.ok _ => Decidable.isFalse (by simp)
  | Except.ok _, Except.error _ => Decidable.isFalse (by simp)
  | Except.ok a, Except.ok b =>
    if h : a = b then Decidable.isTrue (by rw [h])
    else Decidable.isFalse (by simp [h])

instance {ε α : Type} [DecidableEq ε] [DecidableEq α] :
    DecidableEq (Except ε α) := exceptDecEq

/- ──────────────────  concrete example states  ────────────── -/

/-- Fallback collection value for impossible `match` arms of the concrete
examples below. -/
def emptyCollection : Collection :=
  { dimension := 0, keep_embeddings := true, distance := Distance.Euclidean,
    vectors := [], row2value := [], meta := [], binary := [],
    comp2row := [], value2row := [], free := [], hnsw := none }

/-- A Euclidean collection of dimension 2 holding the single record
`("a", [1, 2])`. -/
def c3Collection : Collection :=
  match Collection.create_with_distance 2 "euclidean" with
  | Except.error _ => emptyCollection
  | Except.ok c => (c.insert (fun x => x) 0 "a" [1, 2] none).1

/-- A `lib.rs` cosine collection of dimension 2 with no records. -/
def c3LibCollection : LibCollection :=
  { dimension := 2, keep_embeddings := true, distance := Distance.Euclidean,
    embeddings := [], hnsw_index := none }

/-- The claim C4 scenario: a Binary collection of dimension 1 with
`keep_embeddings = false`, after inserting `("a", [1])` and `("b", [-1])`
and removing `"a"` (row 0 is freed but keeps its stale signature). -/
def c4State : Collection :=
  match Collection.create_with_distance 1 "binary" with
  | Except.error _ => emptyCollection
  | Except.ok c =>
    let c := { c with keep_embeddings := false }
    let c := (c.insert (fun x => x) 0 "a" [1] none).1
    let c := (c.insert (fun x => x) 0 "b" [-1] none).1
    (c.remove "a").1

/-- An empty Cosine collection of dimension 2. -/
def c9Collection : Collection :=
  match Collection.create_with_distance 2 "cosine" with
  | Except.error _ => emptyCollection
  | Except.ok c => c

/-- Candidate list for the C5 counterexample. -/
def c5Initial : List (String × ℚ) :=
  [("a", 1), ("b", 3 / 5), ("c", 0)]

/-- Candidate vectors for the C5 counterexample. -/
def c5Vectors : List (String × List ℚ) :=
  [("a", [1]), ("b", [9 / 10]), ("c", [0])]

/-- Number of graph nodes not yet marked visited: the part of the
`search_layer` termination measure that the visited set shrinks. -/
def unvisitedCount (idx : HnswIndex) (visited : List Nat) : Nat :=
  ((idx.nodes.map Prod.fst).filter (fun k => k ∉ visited)).length

/-- Number of graph nodes strictly closer to the query than distance `d`:
the greedy-descent termination measure. -/
def closerCount (s : ℚ → ℚ) (idx : HnswIndex) (q : List ℚ) (d : ℚ) : Nat :=
  (idx.nodes.filter
    (fun p => simd_euclidean_distance s p.2.vector q < d)).length

/-- The C8 entry invariant transcribed on the `lib.rs` index type, as an
executable check: the entry point exists iff the node set is non-empty,
and its layer bounds every node's layer. -/
def libEntryMaxCheck (idx : LibHnswIndex) : Bool :=
  match idx.entry_point with
  | none => idx.nodes.isEmpty
  | some e =>
    !idx.nodes.isEmpty &&
    (match libNodesLookup idx e with
     | none => false
     | some en => idx.nodes.all (fun p => decide (p.2.layer ≤ en.layer)))

/-- Concrete `lib.rs` index for the C8 counterexample: entry node 2 has the
maximal layer 5, node 1 has layer 2, node 0 has layer 0, with mutually
consistent connection lists. -/
def c8LibIndex : LibHnswIndex :=
  { nodes :=
      [(0, { vector := [1], connections := [[1, 2]], layer := 0 }),
       (1, { vector := [2], connections := [[0, 2], [2], [2]], layer := 2 }),
       (2, { vector := [3],
             connections := [[0, 1], [1], [1], [], [], []], layer := 5 })],
    entry_point := some 2 }

/- ═══════════════════════  THEOREMS  ═══════════════════════ -/

theorem popCountAux_zero (fuel : Nat) : popCountAux fuel 0 = 0 := by
  cases fuel <;> simp [popCountAux]

theorem popCount_zero : popCount 0 = 0 :=
  popCountAux_zero 64

theorem popCountAux_two_pow (fuel : Nat) :
    ∀ k, k < fuel → popCountAux fuel (2 ^ k) = 1 := by
  induction fuel with
  | zero => omega
  | succ fuel ih =>
    intro k hk
    cases k with
    | zero => simp [popCountAux, popCountAux_zero]
    | succ k =>
      have h2 : (2 : Nat) ^ (k + 1) ≠ 0 := by positivity
      have hmod : 2 ^ (k + 1) % 2 = 0 := by
        simp [Nat.pow_succ, Nat.mul_mod_left]
      have hdiv : 2 ^ (k + 1) / 2 = 2 ^ k := by
        rw [Nat.pow_succ, Nat.mul_div_cancel]; omega
      simp only [popCountAux, if_neg h2, hmod, hdiv]
      rw [ih k (by omega)]

theorem popCount_two_pow (k : Nat) (hk : k ≤ 63) : popCount (2 ^ k) = 1 :=
  popCountAux_two_pow 64 k (by omega)

theorem xor_two_mul_add (a c b : Nat) (hb : b ≤ 1) :
    (2 * a + b) ^^^ (2 * c + b) = 2 * (a ^^^ c) := by
  interval_cases b
  · have ha : 2 * a + 0 = Nat.bit false a := by simp [Nat.bit_val]
    have hc : 2 * c + 0 = Nat.bit false c := by simp [Nat.bit_val]
    rw [ha, hc, Nat.xor_bit]
    simp [Nat.bit_val]
  · have ha : 2 * a + 1 = Nat.bit true a := by simp [Nat.bit_val]
    have hc : 2 * c + 1 = Nat.bit true c := by simp [Nat.bit_val]
    rw [ha, hc, Nat.xor_bit]
    simp [Nat.bit_val]

theorem xor_flip_bit (a b₁ b₂ : Nat) (hb₁ : b₁ ≤ 1) (hb₂ : b₂ ≤ 1) (hne : b₁ ≠ b₂) :
    (2 * a + b₁) ^^^ (2 * a + b₂) = 1 := by
  interval_cases b₁ <;> interval_cases b₂ <;> try omega
  · have h1 : 2 * a + 0 = Nat.bit false a := by simp [Nat.bit_val]
    have h2 : 2 * a + 1 = Nat.bit true a := by simp [Nat.bit_val]
    rw [h1, h2, Nat.xor_bit]
    simp [Nat.bit_val]
  · have h1 : 2 * a + 1 = Nat.bit true a := by simp [Nat.bit_val]
    have h2 : 2 * a + 0 = Nat.bit false a := by simp [Nat.bit_val]
    rw [h1, h2, Nat.xor_bit]
    simp [Nat.bit_val]

theorem xor_mul_two_pow (a c k : Nat) :
    (a * 2 ^ k) ^^^ (c * 2 ^ k) = (a ^^^ c) * 2 ^ k := by
  induction k with
  | zero => simp
  | succ k ih =>
    have ha : a * 2 ^ (k + 1) = 2 * (a * 2 ^ k) + 0 := by ring
    have hc : c * 2 ^ (k + 1) = 2 * (c * 2 ^ k) + 0 := by ring
    rw [ha, hc, xor_two_mul_add _ _ 0 (by omega), ih]
    ring

theorem hamming_distance_self (l : List Nat) : hamming_distance l l = 0 := by
  induction l with
  | nil => rfl
  | cons x t ih =>
    simp only [hamming_distance, List.zip_cons_cons, List.map_cons, List.sum_cons]
    rw [Nat.xor_self, popCount_zero]
    simpa [hamming_distance] using ih

theorem compressGo_length (l : List ℚ) :
    ∀ cur filled, filled < 64 →
      (compressGo l cur filled).length = (filled + l.length + 63) / 64 := by
  induction l with
  | nil =>
    intro cur filled hf
    simp only [compressGo, List.length_nil]
    split <;> simp <;> omega
  | cons v t ih =>
    intro cur filled hf
    simp only [compressGo, List.length_cons]
    split
    · rename_i h64
      have := ih 0 0 (by omega)
      simp only [List.length_cons, this]
      omega
    · rename_i h64
      have := ih (2 * cur + signBit v) (filled + 1) (by omega)
      rw [this]
      omega

theorem signBit_le_one (v : ℚ) : signBit v ≤ 1 := by
  unfold signBit; split <;> omega

theorem signBit_neg_ne (v : ℚ) (hv : v ≠ 0) : signBit v ≠ signBit (-v) := by
  unfold signBit
  rcases lt_trichotomy v 0 with h | h | h
  · rw [if_neg (by linarith), if_pos (by linarith)]; omega
  · exact absurd h hv
  · rw [if_pos (by linarith), if_neg (by linarith)]; omega

theorem compressGo_diverged (t : List ℚ) :
    ∀ c₁ c₂ k filled, 1 ≤ filled → filled ≤ 63 → k < filled → c₁ ^^^ c₂ = 2 ^ k →
      hamming_distance (compressGo t c₁ filled) (compressGo t c₂ filled) = 1 := by
  induction t with
  | nil =>
    intro c₁ c₂ k filled h1 h63 hk hxor
    simp only [compressGo, if_pos (by omega : 0 < filled)]
    simp only [hamming_distance, List.zip_cons_cons, List.zip_nil_right,
      List.map_cons, List.map_nil, List.sum_cons, List.sum_nil]
    rw [xor_mul_two_pow, hxor, ← pow_add, popCount_two_pow _ (by omega)]
    omega
  | cons v t ih =>
    intro c₁ c₂ k filled h1 h63 hk hxor
    simp only [compressGo]
    have hx : (2 * c₁ + signBit v) ^^^ (2 * c₂ + signBit v) = 2 ^ (k + 1) := by
      rw [xor_two_mul_add _ _ _ (signBit_le_one v), hxor, pow_succ]
      ring
    split
    · rename_i h64
      simp only [hamming_distance, List.zip_cons_cons, List.map_cons, List.sum_cons]
      rw [hx, popCount_two_pow _ (by omega)]
      have := hamming_distance_self (compressGo t 0 0)
      simpa [hamming_distance] using this
    · exact ih _ _ (k + 1) (filled + 1) (by omega) (by omega) (by omega) hx

theorem compressGo_flip (l : List ℚ) :
    ∀ (i : Nat) (h : i < l.length) cur filled, filled ≤ 63 → l.get ⟨i, h⟩ ≠ 0 →
      hamming_distance (compressGo l cur filled)
        (compressGo (l.set i (-l.get ⟨i, h⟩)) cur filled) = 1 := by
  induction l with
  | nil => intro i h; exact absurd h (by simp)
  | cons a t ih =>
    intro i h cur filled hf hne
    cases i with
    | zero =>
      simp only [List.get, List.set] at hne ⊢
      simp only [compressGo]
      have hs := signBit_neg_ne a hne
      have hx : (2 * cur + signBit a) ^^^ (2 * cur + signBit (-a)) = 1 :=
        xor_flip_bit cur _ _ (signBit_le_one a) (signBit_le_one (-a)) hs
      split
      · simp only [hamming_distance, List.zip_cons_cons, List.map_cons, List.sum_cons]
        rw [hx]
        have h1 : popCount 1 = 1 := by decide
        rw [h1]
        have := hamming_distance_self (compressGo t 0 0)
        simpa [hamming_distance] using this
      · rename_i h64
        exact compressGo_diverged t _ _ 0 (filled + 1) (by omega) (by omega) (by omega)
          (by rw [hx]; rfl)
    | succ i =>
      simp only [List.get, List.set] at hne ⊢
      simp only [compressGo]
      split
      · simp only [hamming_distance, List.zip_cons_cons, List.map_cons, List.sum_cons]

        rw [Nat.xor_self, popCount_zero]
        have := ih i (by simpa using h) 0 0 (by omega) hne
        simpa [hamming_distance] using this
      · exact ih i (by simpa using h) _ (filled + 1) (by omega) hne

/-- C7: for every float vector `v` of length `n`, `compress_vector v` yields
exactly ⌈n/64⌉ 64-bit words; the Hamming distance of the signature with
itself is 0; and flipping the sign of any component whose value is not
exactly zero changes the Hamming distance between old and new signature by
exactly 1. (The original claim asserted this for every component; a component
that is exactly zero keeps sign bit 1 after negation, see the
counterexample.) -/
theorem C7_compress_roundtrip (v : List ℚ) :
    (compress_vector v).length = (v.length + 63) / 64 ∧
    hamming_distance (compress_vector v) (compress_vector v) = 0 ∧
    ∀ (i : Nat) (h : i < v.length), v.get ⟨i, h⟩ ≠ 0 →
      hamming_distance (compress_vector v)
        (compress_vector (v.set i (-v.get ⟨i, h⟩))) = 1 := by
  refine ⟨?_, hamming_distance_self _, ?_⟩
  · have := compressGo_length v 0 0 (by omega)
    simpa [compress_vector] using this
  · intro i h hne
    exact compressGo_flip v i h 0 0 (by omega) hne

/-- Witness for C7 at the concrete vector `[1]`, flipping component 0. -/
theorem C7_compress_roundtrip_witness :
    (compress_vector [(1 : ℚ)]).length = 1 ∧
    hamming_distance (compress_vector [(1 : ℚ)]) (compress_vector [(1 : ℚ)]) = 0 ∧
    hamming_distance (compress_vector [(1 : ℚ)])
      (compress_vector (List.set [(1 : ℚ)] 0 (-(1 : ℚ)))) = 1 := by
  obtain ⟨h1, h2, h3⟩ := C7_compress_roundtrip [(1 : ℚ)]
  refine ⟨by simpa using h1, h2, ?_⟩
  simpa using h3 0 (by norm_num) (by norm_num)

/-- C7 counterexample: flipping the sign of a component that is exactly zero
does not change the sign-bit signature (both `0` and `-0` map to bit 1), so
the Hamming distance between the old and the new signature is 0, not 1. -/
theorem C7_zero_component_counterexample :
    hamming_distance (compress_vector [(0 : ℚ)])
        (compress_vector (List.set [(0 : ℚ)] 0 (-(0 : ℚ)))) = 0 ∧
    ¬ (hamming_distance (compress_vector [(0 : ℚ)])
        (compress_vector (List.set [(0 : ℚ)] 0 (-(0 : ℚ)))) = 1) := by
  constructor
  · norm_num
    exact hamming_distance_self _
  · norm_num
    rw [hamming_distance_self _]
    omega

/-- C6 counterexample: the spec's recognition table maps the alias `l2` to
Euclidean, but collection creation rejects it with *unknown distance* (only
the standalone `distance_from_str` parser knows the aliases). -/
theorem C6_alias_counterexample :
    specDistanceRecognition "l2" = some Distance.Euclidean ∧
    Collection.create_with_distance 3 "l2" = Except.error "unknown distance" ∧
    distance_from_str "l2" = Except.ok Distance.Euclidean := by
  refine ⟨by decide, ?_, by decide⟩
  rfl

/-- C6: collection creation recognizes exactly euclidean, cosine, dot, hnsw
and binary case-insensitively and fails with *unknown distance* on
everything else; the full alias table of the claim (l2, dotproduct,
hamming) is implemented only by `nifs.rs::distance_from_str`, the parser of
the standalone `mmr_rerank_embeddings` operation. -/
theorem C6_distance_recognition (dim : Nat) (dist : String) :
    ((Collection.create_with_distance dim dist).toOption.map Collection.distance
      = amendedDistanceRecognition dist) ∧
    (Collection.create_with_distance dim dist = Except.error "unknown distance"
      ↔ amendedDistanceRecognition dist = none) ∧
    ((distance_from_str dist).toOption = specDistanceRecognition dist) ∧
    (distance_from_str dist = Except.error "[vettore] unknown distance"
      ↔ specDistanceRecognition dist = none) := by
  unfold Collection.create_with_distance amendedDistanceRecognition
    distance_from_str specDistanceRecognition
  refine ⟨?_, ?_, ?_, ?_⟩ <;> dsimp only <;> split_ifs <;>
    simp [Except.toOption]

/-- C3 counterexample: `similarity.rs::similarity_search` performs no
query-dimension check for brute-force collections; a length-1 query against
a dimension-2 Euclidean collection succeeds, scoring over the min-length
prefix, instead of failing with a dimension-mismatch error. -/
theorem C3_missing_dim_check_counterexample :
    c3Collection.hnsw = none ∧
    c3Collection.dimension = 2 ∧
    [(3 : ℚ)].length ≠ c3Collection.dimension ∧
    similarity_search (fun x => x) (fun x => x) c3Collection [3] 1 =
      Except.ok [("a", 1 / 5)] := by
  refine ⟨rfl, rfl, by decide, by decide⟩

/-- C3: the brute-force `similarity_search` of `similarity.rs` never fails
for a collection without an HNSW index and a non-HNSW distance, whatever the
query length; the query-dimension check of the claim lives in
`lib.rs::Collection::get_similarity`, which fails with a dimension-mismatch
error whenever the dimension is positive, the query is non-empty and the
lengths differ. -/
theorem C3_query_dim_mismatch (s e : ℚ → ℚ) (c : Collection)
    (lc : LibCollection) (q : List ℚ) (k : Nat) :
    (c.hnsw = none → c.distance ≠ Distance.Hnsw →
      ∃ l, similarity_search s e c q k = Except.ok l) ∧
    (lc.distance ≠ Distance.Hnsw → 0 < lc.dimension → q ≠ [] →
      q.length ≠ lc.dimension →
      lib_get_similarity s e lc q k =
        some (Except.error ("Dimension mismatch: expected "
          ++ toString lc.dimension ++ ", got " ++ toString q.length))) := by
  constructor
  · intro hh hd
    unfold similarity_search
    rw [hh]
    cases hc : c.distance
    · exact ⟨_, rfl⟩
    · exact ⟨_, rfl⟩
    · exact ⟨_, rfl⟩
    · exact absurd hc hd
    · exact ⟨_, rfl⟩
  · intro _ hdim hq hlen
    unfold lib_get_similarity lib_check_vector_dimension
    rw [if_neg (by omega), if_neg (by simpa using hq), if_pos hlen]

/-- Witness for C3 at the concrete states `c3Collection` (Euclidean, no
index) and `c3LibCollection` (dimension 2) with the length-1 query `[3]`. -/
theorem C3_query_dim_mismatch_witness :
    (∃ l, similarity_search (fun x => x) (fun x => x) c3Collection [3] 1 =
      Except.ok l) ∧
    lib_get_similarity (fun x => x) (fun x => x) c3LibCollection [3] 1 =
      some (Except.error "Dimension mismatch: expected 2, got 1") := by
  have h := C3_query_dim_mismatch (fun x => x) (fun x => x) c3Collection
    c3LibCollection [3] 1
  refine ⟨h.1 (by rfl) (by decide), ?_⟩
  have := h.2 (by decide) (by decide) (by decide) (by decide)
  simpa using this

/-- C4 (code bug): after inserting `("a",[1])`, `("b",[-1])` and removing
`"a"` in a Binary collection, the single live record is `"b"`, yet
`brute_binary` with query `[1]` and k = 1 returns the empty list: the freed
row 0 keeps its stale signature, wins the only top-k slot by Hamming
distance 0, and is then dropped by the liveness filter that runs after
`take k`. -/
theorem C4_freed_row_shadows_topk :
    c4State.hnsw = none ∧
    c4State.distance = Distance.Binary ∧
    (List.range c4State.row_count).filterMap c4State.value_by_row = ["b"] ∧
    brute_binary c4State [1] 1 = Except.ok [] ∧
    similarity_search (fun x => x) (fun x => x) c4State [1] 1 =
      Except.ok [] := by
  refine ⟨rfl, rfl, by decide, by decide, by decide⟩

/-- C5 counterexample: on a Cosine collection the redundancy term of
`mmr.rs::mmr_rerank` is the raw dot product, not the §4.2 mapping
`clamp((dot+1)/2)`; at the concrete candidate list below the two rules pick
different second elements, so the claim's description of the selection is
false for the code. -/
theorem C5_mmr_sim_counterexample :
    mmr_rerank (fun x => x) c5Initial c5Vectors Distance.Cosine (1 / 2) 2 =
      [("a", 1), ("c", 0)] ∧
    spec_mmr_rerank (fun x => x) (fun x => x) c5Initial c5Vectors
      Distance.Cosine (1 / 2) 2 = [("a", 1), ("b", 3 / 5)] ∧
    ¬ (mmr_rerank (fun x => x) c5Initial c5Vectors Distance.Cosine (1 / 2) 2 =
      spec_mmr_rerank (fun x => x) (fun x => x) c5Initial c5Vectors
        Distance.Cosine (1 / 2) 2) := by
  refine ⟨by decide, by decide, by decide⟩

/-- C5: in MMR re-ranking the redundancy term `sim(c,s)` agrees with the
§4.2 score mapping only for Euclidean and HNSW (where the clamp is a no-op
because distances are non-negative); for Cosine and Dot-Product it is the
raw dot product, and for Binary it is the Euclidean mapping `1/(1+d)`
instead of `1 − hamming/dim`.  When the selected set is empty the max term
is 0. -/
theorem C5_mmr_redundancy (s e : ℚ → ℚ) (hs : ∀ x, 0 ≤ s x)
    (dist : Distance) (cvec svec : List ℚ) (pairSim : String → String → ℚ)
    (cid : String) :
    ((dist = Distance.Euclidean ∨ dist = Distance.Hnsw) →
      mmrPairSim s dist cvec svec =
        compute_0_1_score s e cvec
          { id := "", vector := svec, metadata := none, binary := none } dist) ∧
    ((dist = Distance.Cosine ∨ dist = Distance.DotProduct) →
      mmrPairSim s dist cvec svec = simd_dot_product cvec svec) ∧
    (dist = Distance.Binary →
      mmrPairSim s dist cvec svec =
        1 / (1 + simd_euclidean_distance s cvec svec)) ∧
    mmrMaxSim pairSim [] cid = 0 := by
  refine ⟨?_, ?_, ?_, rfl⟩
  · rintro (rfl | rfl) <;>
    · show _ = clamp_0_1 (1 / (1 + simd_euclidean_distance s cvec svec))
      have hd : (0 : ℚ) ≤ simd_euclidean_distance s cvec svec := hs _
      have h1 : (0 : ℚ) < 1 + simd_euclidean_distance s cvec svec := by linarith
      have hle : 1 / (1 + simd_euclidean_distance s cvec svec) ≤ 1 := by
        rw [div_le_one h1]; linarith
      have hge : 0 ≤ 1 / (1 + simd_euclidean_distance s cvec svec) :=
        le_of_lt (by positivity)
      unfold clamp_0_1
      rw [if_neg (by linarith), if_neg (by linarith)]
      rfl
  · rintro (rfl | rfl) <;> rfl
  · rintro rfl; rfl

/-- Witness for C5 at Euclidean distance with `sqrt` modelled by the zero
function and concrete one-component vectors. -/
theorem C5_mmr_redundancy_witness :
    (mmrPairSim (fun _ => 0) Distance.Euclidean [1] [2] =
      compute_0_1_score (fun _ => 0) (fun x => x) [1]
        { id := "", vector := [2], metadata := none, binary := none }
        Distance.Euclidean) ∧
    (mmrPairSim (fun _ => 0) Distance.Cosine [1] [2] =
      simd_dot_product [1] [2]) ∧
    (mmrPairSim (fun _ => 0) Distance.Binary [1] [2] =
      1 / (1 + simd_euclidean_distance (fun _ => 0) [1] [2])) ∧
    mmrMaxSim (fun _ _ => 1) [] "c" = 0 := by
  have h := C5_mmr_redundancy (fun _ => 0) (fun x => x)
    (fun _ => le_refl 0) Distance.Euclidean [1] [2] (fun _ _ => 1) "c"
  have h2 := C5_mmr_redundancy (fun _ => 0) (fun x => x)
    (fun _ => le_refl 0) Distance.Cosine [1] [2] (fun _ _ => 1) "c"
  have h3 := C5_mmr_redundancy (fun _ => 0) (fun x => x)
    (fun _ => le_refl 0) Distance.Binary [1] [2] (fun _ _ => 1) "c"
  exact ⟨h.1 (Or.inl rfl), h2.2.1 (Or.inl rfl), h3.2.2.1 rfl, h.2.2.2⟩

theorem lookup_none_of_forall_lt (l : List (Nat × HnswNode)) (n : Nat)
    (h : ∀ p ∈ l, p.1 < n) : l.lookup n = none := by
  induction l with
  | nil => rfl
  | cons x t ih =>
    have hx := h x (by simp)
    have hne : (n == x.1) = false := by
      simp only [beq_eq_false_iff_ne, ne_eq]
      omega
    simp only [List.lookup, hne]
    exact ih (fun p hp => h p (by simp [hp]))

theorem alloc_row_hnsw (c : Collection) : (c.alloc_row).2.hnsw = c.hnsw := by
  unfold Collection.alloc_row
  rcases c.free with _ | ⟨r, rest⟩ <;> rfl

theorem hnswAdd_snd_none (s : ℚ → ℚ) (idx : HnswIndex) (id : Nat)
    (vector : List ℚ) (lvl : Nat) (hfresh : nodesLookup idx id = none)
    (hmax : entryMax idx) : (hnswAdd s idx id vector lvl).2 = none := by
  unfold hnswAdd
  rw [hfresh]
  simp only [Option.isSome_none, Bool.false_eq_true, if_false]
  by_cases hemp : idx.nodes.isEmpty
  · simp [hemp]
  · simp only [hemp, if_false]
    unfold entryMax at hmax
    rcases hentry : idx.entry with _ | ep0
    · rw [hentry] at hmax
      exact absurd hmax (by simpa using hemp)
    · rw [hentry] at hmax
      dsimp only at hmax
      simp only [Bool.false_eq_true, if_false]
      rcases hep : nodesLookup idx ep0 with _ | en
      · rw [hep] at hmax
        dsimp only at hmax
        exact hmax.2.elim
      · rw [hep] at hmax
        dsimp only at hmax
        dsimp only
        split
        · rfl
        · split_ifs <;> rfl

theorem wrapperInsert_snd_none (s : ℚ → ℚ) (lvl : Nat) (w : HnswIndexWrapper)
    (value : String) (vector : List ℚ) (h : wrapperInv w) :
    (wrapperInsert s lvl w value vector).2 = none := by
  obtain ⟨hlt, hmax⟩ := h
  have hl : nodesLookup w.index w.next = none :=
    lookup_none_of_forall_lt _ _ hlt
  have hsnd := hnswAdd_snd_none s w.index w.next vector lvl hl hmax
  unfold wrapperInsert
  dsimp only
  rcases hres : hnswAdd s w.index w.next vector lvl with ⟨idx2, err2⟩
  rw [hres] at hsnd
  rcases err2 with _ | e
  · rfl
  · exact absurd hsnd (by simp)

theorem ite_update_vectors_hnsw (cond : Prop) [Decidable cond]
    (X : Collection) (v : List ℚ) :
    (if cond then { X with vectors := v } else X).hnsw = X.hnsw := by
  split <;> rfl

/-- C2: insert is atomic.  On well-formed collections (node ids below the
allocator, entry invariant) every error `Collection::insert` can return —
dimension mismatch, duplicate value, duplicate vector — is raised before any
mutation, and the HNSW insertion step, which the code does not roll back,
can in fact never fail because the wrapper always hands `add` a fresh id; so
whenever insert returns an error the collection is exactly as before. -/
theorem C2_insert_atomic (s : ℚ → ℚ) (lvl : Nat) (c : Collection)
    (value : String) (vec : List ℚ) (md : Option Metadata) (err : String)
    (hinv : collectionInv c)
    (herr : (Collection.insert s lvl c value vec md).2 = some err) :
    (Collection.insert s lvl c value vec md).1 = c := by
  unfold Collection.insert at herr ⊢
  by_cases h1 : vec.length ≠ c.dimension
  · rw [if_pos h1]
  · rw [if_neg h1] at herr ⊢
    by_cases h2 : (c.value2row.lookup value).isSome = true
    · rw [if_pos h2]
    · rw [if_neg h2] at herr ⊢
      dsimp only at herr ⊢
      by_cases h3 : (c.comp2row.lookup (compress_vector
          (if c.distance = Distance.Cosine then normalize_vec s vec
           else vec))).isSome = true
      · rw [if_pos h3]
      · rw [if_neg h3] at herr
        exfalso
        rw [ite_update_vectors_hnsw, alloc_row_hnsw] at herr
        unfold collectionInv at hinv
        rcases hh : c.hnsw with _ | w
        · rw [hh] at herr
          dsimp only at herr
          exact absurd herr (by simp)
        · rw [hh] at herr hinv
          dsimp only at herr hinv
          rw [wrapperInsert_snd_none s lvl w value _ hinv] at herr
          exact absurd herr (by simp)

/-- Witness for C2: a dimension-mismatch insert into the concrete Euclidean
collection leaves it untouched. -/
theorem C2_insert_atomic_witness :
    (Collection.insert (fun x => x) 0 c3Collection "z" [1, 2, 3] none).1 =
      c3Collection :=
  C2_insert_atomic (fun x => x) 0 c3Collection "z" [1, 2, 3] none
    "dimension mismatch" True.intro (by decide)

theorem signBit_div (x c : ℚ) (hc : 0 < c) : signBit (x / c) = signBit x := by
  unfold signBit
  by_cases hx : 0 ≤ x
  · rw [if_pos (div_nonneg hx hc.le), if_pos hx]
  · push_neg at hx
    rw [if_neg (by simpa using (div_neg_of_neg_of_pos hx hc).not_le),
      if_neg (by simpa using hx.not_le)]

theorem compressGo_map_div (l : List ℚ) (c : ℚ) (hc : 0 < c) :
    ∀ cur filled,
      compressGo (l.map (fun x => x / c)) cur filled = compressGo l cur filled := by
  induction l with
  | nil => intro cur filled; rfl
  | cons x t ih =>
    intro cur filled
    simp only [List.map_cons, compressGo, signBit_div x c hc]
    split
    · rw [ih 0 0]
    · rw [ih _ _]

theorem compress_vector_normalize (s : ℚ → ℚ) (v : List ℚ) :
    compress_vector (normalize_vec s v) = compress_vector v := by
  unfold normalize_vec compress_vector
  dsimp only
  split
  · rename_i hnorm
    have hc : (0 : ℚ) < s (sumSq v) := by
      have : (0 : ℚ) < f32_epsilon := by norm_num [f32_epsilon]
      linarith
    exact compressGo_map_div v _ hc 0 0
  · rfl

theorem getD_set_self {α : Type} (l : List α) (n : Nat) (a d : α)
    (h : n < l.length) : (l.set n a).getD n d = a := by
  induction l generalizing n with
  | nil => simp at h
  | cons x t ih =>
    cases n with
    | zero => rfl
    | succ n => exact ih n (by simpa using h)

theorem alloc_row_fields (c : Collection) :
    (c.alloc_row).2.dimension = c.dimension ∧
    (c.alloc_row).2.keep_embeddings = c.keep_embeddings ∧
    (c.alloc_row).2.distance = c.distance ∧
    (c.alloc_row).2.comp2row = c.comp2row ∧
    (c.alloc_row).2.value2row = c.value2row := by
  unfold Collection.alloc_row
  rcases c.free with _ | ⟨r, rest⟩ <;> exact ⟨rfl, rfl, rfl, rfl, rfl⟩

theorem alloc_row_bound (c : Collection) (h : rowInv c) :
    (c.alloc_row).1 < (c.alloc_row).2.row2value.length := by
  unfold Collection.alloc_row
  rcases hf : c.free with _ | ⟨r, rest⟩
  · simp
  · have := h.1 r (by rw [hf]; simp)
    simpa using this

/-- C9: the sign-bit signature is invariant under normalization (for every
vector and every square-root model, not only those above the epsilon
guard), so on Cosine collections the duplicate-vector lookup decides
identically on the raw and the normalized vector, and `get_by_vector` with
the original un-normalized input finds the record that a successful insert
stored in normalized form. -/
theorem C9_normalization_signature (s : ℚ → ℚ) (v : List ℚ) (lvl : Nat)
    (c : Collection) (value : String) (vec : List ℚ) (md : Option Metadata) :
    compress_vector (normalize_vec s v) = compress_vector v ∧
    c.comp2row.lookup (compress_vector (normalize_vec s vec)) =
      c.comp2row.lookup (compress_vector vec) ∧
    (c.distance = Distance.Cosine → rowInv c →
      (Collection.insert s lvl c value vec md).2 = none →
      ∃ r, (Collection.insert s lvl c value vec md).1.get_by_vector vec = some r ∧
        r.value = value) := by
  refine ⟨compress_vector_normalize s v, by rw [compress_vector_normalize], ?_⟩
  intro hcos hrow herr
  have hbound := alloc_row_bound c hrow
  have hfields := alloc_row_fields c
  unfold Collection.insert at herr ⊢
  by_cases h1 : vec.length ≠ c.dimension
  · rw [if_pos h1] at herr; exact absurd herr (by simp)
  · rw [if_neg h1] at herr ⊢
    by_cases h2 : (c.value2row.lookup value).isSome = true
    · rw [if_pos h2] at herr; exact absurd herr (by simp)
    · rw [if_neg h2] at herr ⊢
      dsimp only at herr ⊢
      by_cases h3 : (c.comp2row.lookup (compress_vector
          (if c.distance = Distance.Cosine then normalize_vec s vec
           else vec))).isSome = true
      · rw [if_pos h3] at herr; exact absurd herr (by simp)
      · rw [if_neg h3] at herr ⊢
        clear herr
        rw [if_pos hcos]
        have hk : (c.alloc_row.2.keep_embeddings
            || decide (c.alloc_row.2.distance ≠ Distance.Binary)) = true := by
          rw [hfields.2.2.1, hcos]; simp
        rw [if_pos hk]
        dsimp only
        rw [alloc_row_hnsw]
        rcases hh : c.hnsw with _ | w <;>
        · dsimp only
          unfold Collection.get_by_vector
          dsimp only
          rw [hfields.1, if_neg h1, compress_vector_normalize s vec]
          simp only [List.lookup, beq_self_eq_true]
          refine ⟨_, rfl, ?_⟩
          unfold Collection.row_to_record
          dsimp only
          rw [getD_set_self _ _ _ _ hbound]
          rfl

/-- Witness for C9: inserting `("x", [3,4])` into an empty Cosine collection
(with `sqrt 25` modelled as 5) stores the normalized vector, and
`get_by_vector` with the raw input finds it. -/
theorem C9_normalization_signature_witness :
    compress_vector (normalize_vec (fun _ => 5) [3, 4]) =
      compress_vector [3, 4] ∧
    (∃ r, (Collection.insert (fun _ => 5) 0 c9Collection "x" [3, 4]
        none).1.get_by_vector [3, 4] = some r ∧ r.value = "x") := by
  have h := C9_normalization_signature (fun _ => 5) [3, 4] 0 c9Collection "x"
    [3, 4] none
  exact ⟨h.1, h.2.2 (by decide)
    (by unfold rowInv; exact ⟨by decide, by decide, by decide⟩) (by decide)⟩

/-- Key-and-layer skeleton of an index: everything `entryMax` depends on. -/
def nodeLayers (idx : HnswIndex) : List (Nat × Nat) :=
  idx.nodes.map (fun p => (p.1, p.2.layer))

theorem updateNode_skeleton (idx : HnswIndex) (id : Nat) (f : HnswNode → HnswNode)
    (hf : ∀ n, (f n).layer = n.layer) :
    nodeLayers (updateNode idx id f) = nodeLayers idx ∧
    (updateNode idx id f).entry = idx.entry := by
  refine ⟨?_, rfl⟩
  unfold nodeLayers updateNode
  simp only [List.map_map]
  refine List.map_congr_left ?_
  intro p _
  by_cases h : p.1 = id <;> simp [h, hf]

theorem prune_skeleton (s : ℚ → ℚ) (idx : HnswIndex) (nid layer : Nat) :
    nodeLayers (prune_node_layer s idx nid layer) = nodeLayers idx ∧
    (prune_node_layer s idx nid layer).entry = idx.entry := by
  unfold prune_node_layer
  rcases nodesLookup idx nid with _ | n
  · exact ⟨rfl, rfl⟩
  · exact updateNode_skeleton _ _ _ (fun _ => rfl)

theorem pruneFold_skeleton (s : ℚ → ℚ) (layer : Nat) (l : List Nat) :
    ∀ idx : HnswIndex,
      nodeLayers (l.foldl (fun i pid => prune_node_layer s i pid layer) idx) =
        nodeLayers idx ∧
      (l.foldl (fun i pid => prune_node_layer s i pid layer) idx).entry =
        idx.entry := by
  induction l with
  | nil => intro idx; exact ⟨rfl, rfl⟩
  | cons x t ih =>
    intro idx
    have h1 := prune_skeleton s idx x layer
    have h2 := ih (prune_node_layer s idx x layer)
    simp only [List.foldl_cons]
    exact ⟨h2.1.trans h1.1, h2.2.trans h1.2⟩

theorem linkBack_skeleton (id layer : Nat) (cand : List (Nat × ℚ)) :
    ∀ (idx : HnswIndex) (tp : List Nat),
      nodeLayers (cand.foldl
        (fun (acc : HnswIndex × List Nat) nb =>
          match nodesLookup acc.1 nb.1 with
          | none => acc
          | some n =>
            if layer < n.connections.length then
              (updateNode acc.1 nb.1
                (fun nd =>
                  let c := nd.connections.getD layer []
                  { nd with connections :=
                      nd.connections.set layer (if id ∈ c then c else c ++ [id]) }),
                acc.2 ++ [nb.1])
            else acc)
        (idx, tp)).1 = nodeLayers idx ∧
      (cand.foldl
        (fun (acc : HnswIndex × List Nat) nb =>
          match nodesLookup acc.1 nb.1 with
          | none => acc
          | some n =>
            if layer < n.connections.length then
              (updateNode acc.1 nb.1
                (fun nd =>
                  let c := nd.connections.getD layer []
                  { nd with connections :=
                      nd.connections.set layer (if id ∈ c then c else c ++ [id]) }),
                acc.2 ++ [nb.1])
            else acc)
        (idx, tp)).1.entry = idx.entry := by
  induction cand with
  | nil => intro idx tp; exact ⟨rfl, rfl⟩
  | cons x t ih =>
    intro idx tp
    simp only [List.foldl_cons]
    rcases hx : nodesLookup idx x.1 with _ | n
    · exact ih idx tp
    · dsimp only
      by_cases hl : layer < n.connections.length
      · rw [if_pos hl]
        have hu := updateNode_skeleton idx x.1
          (fun nd =>
            let c := nd.connections.getD layer []
            { nd with connections :=
                nd.connections.set layer (if id ∈ c then c else c ++ [id]) })
          (fun _ => rfl)
        have ht := ih (updateNode idx x.1
          (fun nd =>
            let c := nd.connections.getD layer []
            { nd with connections :=
                nd.connections.set layer (if id ∈ c then c else c ++ [id]) }))
          (tp ++ [x.1])
        exact ⟨ht.1.trans hu.1, ht.2.trans hu.2⟩
      · rw [if_neg hl]
        exact ih idx tp

theorem addLinkLayer_skeleton (s : ℚ → ℚ) (id : Nat) (vector : List ℚ)
    (ep : Nat) (st : HnswIndex × List (List Nat)) (layer : Nat) :
    nodeLayers (addLinkLayer s id vector ep st layer).1 = nodeLayers st.1 ∧
    (addLinkLayer s id vector ep st layer).1.entry = st.1.entry := by
  unfold addLinkLayer
  dsimp only
  have hlb := linkBack_skeleton id layer
    (((search_layer s st.1 vector ep layer EF_CONSTRUCTION).getD
        []).insertionSort (fun a b => a.2 ≤ b.2) |> dedupByIdConsec
      |>.take (if layer = 0 then M0 else M)) st.1 []
  have hlb' : nodeLayers (linkBack st.1 id layer
      ((dedupByIdConsec (((search_layer s st.1 vector ep layer
        EF_CONSTRUCTION).getD []).insertionSort (fun a b => a.2 ≤ b.2))).take
        (if layer = 0 then M0 else M))).1 = nodeLayers st.1 ∧
      (linkBack st.1 id layer
      ((dedupByIdConsec (((search_layer s st.1 vector ep layer
        EF_CONSTRUCTION).getD []).insertionSort (fun a b => a.2 ≤ b.2))).take
        (if layer = 0 then M0 else M))).1.entry = st.1.entry := by
    unfold linkBack
    exact hlb
  have hpf := pruneFold_skeleton s layer
    (linkBack st.1 id layer
      ((dedupByIdConsec (((search_layer s st.1 vector ep layer
        EF_CONSTRUCTION).getD []).insertionSort (fun a b => a.2 ≤ b.2))).take
        (if layer = 0 then M0 else M))).2
    (linkBack st.1 id layer
      ((dedupByIdConsec (((search_layer s st.1 vector ep layer
        EF_CONSTRUCTION).getD []).insertionSort (fun a b => a.2 ≤ b.2))).take
        (if layer = 0 then M0 else M))).1
  exact ⟨hpf.1.trans hlb'.1, hpf.2.trans hlb'.2⟩

theorem layerFold_skeleton (s : ℚ → ℚ) (id : Nat) (vector : List ℚ) (ep : Nat)
    (layers : List Nat) :
    ∀ st : HnswIndex × List (List Nat),
      nodeLayers (layers.foldl (addLinkLayer s id vector ep) st).1 =
        nodeLayers st.1 ∧
      (layers.foldl (addLinkLayer s id vector ep) st).1.entry = st.1.entry := by
  induction layers with
  | nil => intro st; exact ⟨rfl, rfl⟩
  | cons x t ih =>
    intro st
    simp only [List.foldl_cons]
    have h1 := addLinkLayer_skeleton s id vector ep st x
    have h2 := ih (addLinkLayer s id vector ep st x)
    exact ⟨h2.1.trans h1.1, h2.2.trans h1.2⟩

theorem lookup_layer_eq (l : List (Nat × HnswNode)) :
    ∀ l' : List (Nat × HnswNode),
      l.map (fun p => (p.1, p.2.layer)) = l'.map (fun p => (p.1, p.2.layer)) →
      ∀ e, (l.lookup e).map HnswNode.layer = (l'.lookup e).map HnswNode.layer := by
  induction l with
  | nil =>
    intro l' h e
    cases l' with
    | nil => rfl
    | cons y t => simp at h
  | cons x t ih =>
    intro l' h e
    cases l' with
    | nil => simp at h
    | cons y t' =>
      simp only [List.map_cons, List.cons.injEq, Prod.mk.injEq] at h
      obtain ⟨⟨hk, hl⟩, ht⟩ := h
      simp only [List.lookup]
      rcases hbe : e == x.1 with _ | _
      · rw [show (e == y.1) = false by rw [← hk]; exact hbe]
        exact ih t' ht e
      · rw [show (e == y.1) = true by rw [← hk]; exact hbe]
        simp [hl]

theorem keys_of_nodeLayers (l : List (Nat × HnswNode)) :
    l.map Prod.fst = (l.map (fun p => (p.1, p.2.layer))).map Prod.fst := by
  simp [List.map_map]

theorem mem_layer_transfer (l l' : List (Nat × HnswNode))
    (h : l.map (fun p => (p.1, p.2.layer)) = l'.map (fun p => (p.1, p.2.layer)))
    (p : Nat × HnswNode) (hp : p ∈ l') :
    ∃ q ∈ l, q.2.layer = p.2.layer := by
  have : (p.1, p.2.layer) ∈ l'.map (fun p => (p.1, p.2.layer)) :=
    List.mem_map_of_mem _ hp
  rw [← h] at this
  obtain ⟨q, hq, hqe⟩ := List.mem_map.mp this
  exact ⟨q, hq, congrArg Prod.snd hqe⟩

theorem entryMax_congr (idx idx' : HnswIndex)
    (hn : nodeLayers idx = nodeLayers idx') (he : idx.entry = idx'.entry)
    (h : entryMax idx) : entryMax idx' := by
  unfold entryMax at h ⊢
  unfold nodeLayers at hn
  rcases hent : idx'.entry with _ | e
  · rw [he, hent] at h
    have : idx'.nodes.map (fun p => (p.1, p.2.layer)) = [] := by
      rw [← hn, h]; rfl
    exact List.map_eq_nil_iff.mp this
  · rw [he, hent] at h
    obtain ⟨hne, h2⟩ := h
    constructor
    · intro habs
      rw [habs] at hn
      simp only [List.map_nil, List.map_eq_nil_iff] at hn
      exact hne hn
    · have hle := lookup_layer_eq idx.nodes idx'.nodes hn e
      unfold nodesLookup at h2 ⊢
      rcases hl' : List.lookup e idx'.nodes with _ | en'
      · rcases hl : List.lookup e idx.nodes with _ | en
        · rw [hl] at h2; exact h2
        · rw [hl, hl'] at hle; simp at hle
      · rcases hl : List.lookup e idx.nodes with _ | en
        · rw [hl] at h2; exact h2.elim
        · rw [hl] at h2
          rw [hl, hl'] at hle
          simp only [Option.map_some', Option.some.injEq] at hle
          intro p hp
          obtain ⟨q, hq, hqe⟩ := mem_layer_transfer idx.nodes idx'.nodes hn p hp
          rw [← hqe, ← hle]
          exact h2 q hq

theorem lookup_isSome_iff_mem_keys (l : List (Nat × HnswNode)) (k : Nat) :
    (l.lookup k).isSome ↔ k ∈ l.map Prod.fst := by
  induction l with
  | nil => simp [List.lookup]
  | cons x t ih =>
    by_cases h : k = x.1
    · simp [List.lookup, h]
    · have : (k == x.1) = false := by simpa using h
      simp [List.lookup, this, ih, h]

theorem lookup_append_some (l l' : List (Nat × HnswNode)) (k : Nat)
    (n : HnswNode) (h : l.lookup k = some n) : (l ++ l').lookup k = some n := by
  induction l with
  | nil => simp [List.lookup] at h
  | cons x t ih =>
    rcases hbe : k == x.1 with _ | _
    · simp only [List.lookup, hbe] at h
      simpa [List.lookup, hbe] using ih h
    · simp only [List.lookup, hbe] at h
      simpa [List.lookup, hbe] using h

theorem lookup_append_none (l l' : List (Nat × HnswNode)) (k : Nat)
    (h : l.lookup k = none) : (l ++ l').lookup k = l'.lookup k := by
  induction l with
  | nil => rfl
  | cons x t ih =>
    rcases hbe : k == x.1 with _ | _
    · simp only [List.lookup, hbe] at h
      simpa [List.lookup, hbe] using ih h
    · simp only [List.lookup, hbe] at h
      exact Option.noConfusion h

theorem lookup_of_mem_nodup (l : List (Nat × HnswNode))
    (hnd : (l.map Prod.fst).Nodup) (k : Nat) (n : HnswNode)
    (hm : (k, n) ∈ l) : l.lookup k = some n := by
  induction l with
  | nil => simp at hm
  | cons x t ih =>
    simp only [List.map_cons, List.nodup_cons] at hnd
    rcases List.mem_cons.mp hm with heq | hmem
    · rw [← heq]
      simp [List.lookup]
    · have hk : k ≠ x.1 := by
        intro habs
        exact hnd.1 (habs ▸ List.mem_map_of_mem Prod.fst hmem)
      have : (k == x.1) = false := by simpa using hk
      simp only [List.lookup, this]
      exact ih hnd.2 hmem

theorem lookup_filter_ne (l : List (Nat × HnswNode)) (e id : Nat) (hne : e ≠ id) :
    (l.filter (fun p => p.1 ≠ id)).lookup e = l.lookup e := by
  induction l with
  | nil => rfl
  | cons x t ih =>
    rw [List.filter_cons]
    by_cases hx : x.1 = id
    · rw [if_neg (by simp [hx])]
      have hb : (e == x.1) = false := by
        simp only [beq_eq_false_iff_ne, ne_eq, hx]
        exact hne
      simp only [List.lookup, hb]
      exact ih
    · rw [if_pos (by simpa using hx)]
      rcases hbe : e == x.1 with _ | _ <;> simp only [List.lookup, hbe]
      exact ih

theorem argmax_fold_some (l : List (Nat × HnswNode)) :
    ∀ (acc : Option (Nat × HnswNode)) (b : Nat × HnswNode),
      l.foldl (fun acc p =>
        match acc with
        | none => some p
        | some b => if p.2.layer ≥ b.2.layer then some p else some b) acc = some b →
      (b ∈ l ∨ acc = some b) ∧ (∀ p ∈ l, p.2.layer ≤ b.2.layer) ∧
        (∀ a, acc = some a → a.2.layer ≤ b.2.layer) := by
  induction l with
  | nil =>
    intro acc b h
    simp only [List.foldl_nil] at h
    exact ⟨Or.inr h, by simp, fun a ha => by rw [ha] at h; simp at h; rw [h]⟩
  | cons x t ih =>
    intro acc b h
    simp only [List.foldl_cons] at h
    rcases acc with _ | a
    · obtain ⟨hb, hbound, haccb⟩ := ih (some x) b h
      have hxb : x.2.layer ≤ b.2.layer := haccb x rfl
      refine ⟨?_, ?_, ?_⟩
      · rcases hb with hb | hb
        · exact Or.inl (List.mem_cons_of_mem _ hb)
        · exact Or.inl (List.mem_cons.mpr (Or.inl (by injection hb with h'; rw [h'])))
      · intro p hp
        rcases List.mem_cons.mp hp with rfl | hp
        · exact hxb
        · exact hbound p hp
      · intro a ha; cases ha
    · dsimp only at h
      by_cases hge : x.2.layer ≥ a.2.layer
      · rw [if_pos hge] at h
        obtain ⟨hb, hbound, haccb⟩ := ih (some x) b h
        have hxb : x.2.layer ≤ b.2.layer := haccb x rfl
        refine ⟨?_, ?_, ?_⟩
        · rcases hb with hb | hb
          · exact Or.inl (List.mem_cons_of_mem _ hb)
          · exact Or.inl (List.mem_cons.mpr (Or.inl (by injection hb with h'; rw [h'])))
        · intro p hp
          rcases List.mem_cons.mp hp with rfl | hp
          · exact hxb
          · exact hbound p hp
        · intro c hc
          injection hc with hc'
          rw [← hc']
          exact le_trans hge hxb
      · rw [if_neg hge] at h
        obtain ⟨hb, hbound, haccb⟩ := ih (some a) b h
        have hab : a.2.layer ≤ b.2.layer := haccb a rfl
        refine ⟨?_, ?_, ?_⟩
        · rcases hb with hb | hb
          · exact Or.inl (List.mem_cons_of_mem _ hb)
          · exact Or.inr hb
        · intro p hp
          rcases List.mem_cons.mp hp with rfl | hp
          · push_neg at hge
            exact le_trans hge.le hab
          · exact hbound p hp
        · intro c hc
          injection hc with hc'
          rw [← hc']
          exact hab

theorem argmax_fold_none (l : List (Nat × HnswNode)) :
    ∀ acc : Option (Nat × HnswNode),
      l.foldl (fun acc p =>
        match acc with
        | none => some p
        | some b => if p.2.layer ≥ b.2.layer then some p else some b) acc = none →
      l = [] ∧ acc = none := by
  induction l with
  | nil => intro acc h; exact ⟨rfl, h⟩
  | cons x t ih =>
    intro acc h
    simp only [List.foldl_cons] at h
    rcases acc with _ | a
    · obtain ⟨_, h2⟩ := ih (some x) h
      cases h2
    · dsimp only at h
      by_cases hge : x.2.layer ≥ a.2.layer
      · rw [if_pos hge] at h
        obtain ⟨_, h2⟩ := ih (some x) h
        cases h2
      · rw [if_neg hge] at h
        obtain ⟨_, h2⟩ := ih (some a) h
        cases h2

theorem keys_eq_of_nodeLayers (i i' : HnswIndex)
    (h : nodeLayers i = nodeLayers i') :
    i.nodes.map Prod.fst = i'.nodes.map Prod.fst := by
  rw [keys_of_nodeLayers, keys_of_nodeLayers]
  unfold nodeLayers at h
  rw [h]

theorem entryMax_add_core (Fnodes : List (Nat × HnswNode)) (Fentry : Option Nat)
    (base : HnswIndex) (id lvl : Nat) (vector : List ℚ)
    (conns : List (List Nat)) (ep0 : Nat) (en : HnswNode)
    (hsk : Fnodes.map (fun p => (p.1, p.2.layer)) =
      base.nodes.map (fun p => (p.1, p.2.layer)))
    (hse : Fentry = base.entry)
    (hnd : (base.nodes.map Prod.fst).Nodup)
    (hent : base.entry = some ep0)
    (hep : base.nodes.lookup ep0 = some en)
    (hid : base.nodes.lookup id = none)
    (hbound : ∀ p ∈ base.nodes, p.2.layer ≤ en.layer) :
    (((Fnodes ++ [(id, ({ vector := vector, connections := conns, layer := lvl } : HnswNode))]).map Prod.fst).Nodup) ∧
    (∃ en2, (Fnodes ++ [(id, ({ vector := vector, connections := conns, layer := lvl } : HnswNode))]).lookup ep0 = some en2 ∧
      en2.layer = en.layer) ∧
    (lvl > en.layer → entryMax
      { nodes := Fnodes ++ [(id, ({ vector := vector, connections := conns, layer := lvl } : HnswNode))], entry := some id }) ∧
    (¬ lvl > en.layer → entryMax
      { nodes := Fnodes ++ [(id, ({ vector := vector, connections := conns, layer := lvl } : HnswNode))], entry := Fentry }) := by
  have hkeys : Fnodes.map Prod.fst = base.nodes.map Prod.fst := by
    have h1 : (Fnodes.map (fun p => (p.1, p.2.layer))).map Prod.fst =
        (base.nodes.map (fun p => (p.1, p.2.layer))).map Prod.fst := by rw [hsk]
    simpa [List.map_map] using h1
  have hidmem : id ∉ Fnodes.map Prod.fst := by
    rw [hkeys]
    intro hm
    have := (lookup_isSome_iff_mem_keys base.nodes id).mpr hm
    rw [hid] at this
    exact absurd this (by simp)
  have hidnone : Fnodes.lookup id = none := by
    rcases hl : Fnodes.lookup id with _ | v
    · rfl
    · exact absurd ((lookup_isSome_iff_mem_keys Fnodes id).mp (by rw [hl]; rfl))
        hidmem
  have hlay := lookup_layer_eq Fnodes base.nodes hsk ep0
  rw [hep] at hlay
  rcases hf2 : Fnodes.lookup ep0 with _ | en2
  · rw [hf2] at hlay
    simp at hlay
  · rw [hf2] at hlay
    have hlayeq : en2.layer = en.layer := by simpa using hlay
    have hlook2 : (Fnodes ++ [(id, ({ vector := vector, connections := conns, layer := lvl } : HnswNode))]).lookup ep0 =
        some en2 := lookup_append_some _ _ _ _ hf2
    have hlookid : (Fnodes ++ [(id, ({ vector := vector, connections := conns, layer := lvl } : HnswNode))]).lookup id =
        some ({ vector := vector, connections := conns, layer := lvl } : HnswNode) := by
      rw [lookup_append_none _ _ _ hidnone]
      simp [List.lookup]
    have hboundF : ∀ p ∈ Fnodes, p.2.layer ≤ en.layer := by
      intro p hp
      obtain ⟨q, hq, hqe⟩ := mem_layer_transfer base.nodes Fnodes hsk.symm p hp
      rw [← hqe]
      exact hbound q hq
    refine ⟨?_, ⟨en2, hlook2, hlayeq⟩, ?_, ?_⟩
    · rw [List.map_append]
      refine List.Nodup.append (hkeys ▸ hnd) (by simp) ?_
      intro a ha hb
      have haid : a = id := by simpa using hb
      rw [haid] at ha
      exact hidmem ha
    · intro hgt
      unfold entryMax
      refine ⟨by simp, ?_⟩
      unfold nodesLookup
      dsimp only
      rw [hlookid]
      intro p hp
      rcases List.mem_append.mp hp with hp | hp
      · exact le_trans (hboundF p hp) (le_of_lt hgt)
      · rw [List.mem_singleton.mp hp]
    · intro hle
      unfold entryMax
      rw [hse, hent]
      refine ⟨by simp, ?_⟩
      unfold nodesLookup
      dsimp only
      rw [hlook2]
      intro p hp
      rcases List.mem_append.mp hp with hp | hp
      · rw [hlayeq]
        exact hboundF p hp
      · rw [List.mem_singleton.mp hp, hlayeq]
        exact le_of_not_lt hle

theorem hnswAdd_wf (s : ℚ → ℚ) (idx : HnswIndex) (id : Nat) (vector : List ℚ)
    (lvl : Nat) (hnd : (idx.nodes.map Prod.fst).Nodup) (h : entryMax idx) :
    ((hnswAdd s idx id vector lvl).1.nodes.map Prod.fst).Nodup ∧
    entryMax (hnswAdd s idx id vector lvl).1 := by
  unfold hnswAdd
  by_cases hdup : (nodesLookup idx id).isSome = true
  · rw [if_pos hdup]; exact ⟨hnd, h⟩
  · rw [if_neg hdup]
    by_cases hemp : idx.nodes.isEmpty = true
    · rw [if_pos hemp]
      refine ⟨by simp, ?_⟩
      unfold entryMax
      dsimp only
      refine ⟨by simp, ?_⟩
      unfold nodesLookup
      simp [List.lookup]
    · rw [if_neg hemp]
      rcases hent : idx.entry with _ | ep0
      · exact ⟨hnd, h⟩
      · dsimp only
        rcases hep : nodesLookup idx ep0 with _ | en
        · exact ⟨hnd, h⟩
        · dsimp only
          set ST := (List.foldl (addDescendStep s idx vector)
            (ep0, simd_euclidean_distance s en.vector vector)
            (List.range (en.layer + 1)).reverse).1 with hST
          set FOLD := List.foldl (addLinkLayer s id vector ST)
            (idx, List.replicate (lvl + 1) ([] : List Nat))
            (List.range (lvl + 1)) with hFOLD
          have hsk := layerFold_skeleton s id vector ST (List.range (lvl + 1))
            (idx, List.replicate (lvl + 1) ([] : List Nat))
          rw [← hFOLD] at hsk
          have hid : idx.nodes.lookup id = none := by
            rcases hl : idx.nodes.lookup id with _ | v
            · rfl
            · exact absurd (by unfold nodesLookup; rw [hl]; rfl) hdup
          have h' := h
          unfold entryMax at h'
          rw [hent] at h'
          dsimp only at h'
          rw [hep] at h'
          dsimp only at h'
          have hcore := entryMax_add_core FOLD.1.nodes FOLD.1.entry idx id lvl
            vector FOLD.2 ep0 en hsk.1 hsk.2 hnd hent hep hid h'.2
          obtain ⟨hndA, ⟨en2, hlook2, hlayeq⟩, hposA, hnegA⟩ := hcore
          unfold nodesLookup
          dsimp only
          rw [hlook2]
          dsimp only
          split_ifs with hgt
          · exact ⟨hndA, hposA (by rw [← hlayeq]; exact hgt)⟩
          · exact ⟨hndA, hnegA (by rw [← hlayeq]; exact hgt)⟩

theorem retainConn_skeleton (idx : HnswIndex) (nb layer id : Nat) :
    nodeLayers (retainConn idx nb layer id) = nodeLayers idx ∧
    (retainConn idx nb layer id).entry = idx.entry := by
  unfold retainConn
  rcases nodesLookup idx nb with _ | n
  · exact ⟨rfl, rfl⟩
  · dsimp only
    by_cases hl : layer < n.connections.length
    · rw [if_pos hl]
      exact updateNode_skeleton _ _ _ (fun _ => rfl)
    · rw [if_neg hl]
      exact ⟨rfl, rfl⟩

theorem retainInner_skeleton (layer id : Nat) (l : List Nat) :
    ∀ idx : HnswIndex,
      nodeLayers (l.foldl (fun i2 nb => retainConn i2 nb layer id) idx) =
        nodeLayers idx ∧
      (l.foldl (fun i2 nb => retainConn i2 nb layer id) idx).entry =
        idx.entry := by
  induction l with
  | nil => intro idx; exact ⟨rfl, rfl⟩
  | cons x t ih =>
    intro idx
    simp only [List.foldl_cons]
    have h1 := retainConn_skeleton idx x layer id
    have h2 := ih (retainConn idx x layer id)
    exact ⟨h2.1.trans h1.1, h2.2.trans h1.2⟩

theorem connFold_skeleton (id : Nat) (cs : List (Nat × List Nat)) :
    ∀ idx : HnswIndex,
      nodeLayers (cs.foldl
        (fun i p => p.2.foldl (fun i2 nb => retainConn i2 nb p.1 id) i) idx) =
        nodeLayers idx ∧
      (cs.foldl
        (fun i p => p.2.foldl (fun i2 nb => retainConn i2 nb p.1 id) i)
        idx).entry = idx.entry := by
  induction cs with
  | nil => intro idx; exact ⟨rfl, rfl⟩
  | cons x t ih =>
    intro idx
    simp only [List.foldl_cons]
    have h1 := retainInner_skeleton x.1 id x.2 idx
    have h2 := ih (x.2.foldl (fun i2 nb => retainConn i2 nb x.1 id) idx)
    exact ⟨h2.1.trans h1.1, h2.2.trans h1.2⟩

theorem hnswRemove_wf (idx : HnswIndex) (id : Nat)
    (hnd : (idx.nodes.map Prod.fst).Nodup) (h : entryMax idx) :
    ((hnswRemove idx id).1.nodes.map Prod.fst).Nodup ∧
    entryMax (hnswRemove idx id).1 := by
  unfold hnswRemove
  rcases hlk : nodesLookup idx id with _ | node
  · exact ⟨hnd, h⟩
  · dsimp only
    set IDX1 := ({ nodes := idx.nodes.filter (fun p => p.1 ≠ id), entry := idx.entry } : HnswIndex) with hIDX1
    set IDX2 := node.connections.enum.foldl
      (fun i p => p.2.foldl (fun i2 nb => retainConn i2 nb p.1 id) i) IDX1
      with hIDX2
    have hsk := connFold_skeleton id node.connections.enum IDX1
    rw [← hIDX2] at hsk
    have hkeys : IDX2.nodes.map Prod.fst = IDX1.nodes.map Prod.fst := by
      have := hsk.1
      unfold nodeLayers at this
      rw [keys_of_nodeLayers, keys_of_nodeLayers, this]
    have hnd1 : (IDX1.nodes.map Prod.fst).Nodup := by
      rw [hIDX1]
      exact List.Nodup.sublist
        (List.Sublist.map Prod.fst (List.filter_sublist idx.nodes)) hnd
    have hndA : (IDX2.nodes.map Prod.fst).Nodup := by
      rw [hkeys]; exact hnd1
    by_cases hcond : IDX2.entry = some id
    · rw [if_pos hcond]
      refine ⟨hndA, ?_⟩
      rcases hf : IDX2.nodes.foldl (fun acc p =>
          match acc with
          | none => some p
          | some b => if p.2.layer ≥ b.2.layer then some p else some b)
          none with _ | b
      · have hnil := (argmax_fold_none IDX2.nodes none hf).1
        have harg : argmaxLayer IDX2.nodes = none := by
          unfold argmaxLayer
          rw [hf]; rfl
        rw [harg]
        unfold entryMax
        dsimp only
        rw [hnil]
      · have harg : argmaxLayer IDX2.nodes = some b.1 := by
          unfold argmaxLayer
          rw [hf]; rfl
        rw [harg]
        obtain ⟨hmem, hbound, _⟩ := argmax_fold_some IDX2.nodes none b hf
        rcases hmem with hmem | hmem
        · have hlook : IDX2.nodes.lookup b.1 = some b.2 :=
            lookup_of_mem_nodup IDX2.nodes hndA b.1 b.2 (by simpa using hmem)
          unfold entryMax
          dsimp only
          refine ⟨List.ne_nil_of_mem hmem, ?_⟩
          unfold nodesLookup
          dsimp only
          rw [hlook]
          exact hbound
        · exact absurd hmem (by simp)
    · rw [if_neg hcond]
      refine ⟨hndA, ?_⟩
      have hE2 : IDX2.entry = idx.entry := by
        rw [hsk.2, hIDX1]
      unfold entryMax at h
      rcases hent : idx.entry with _ | e
      · rw [hent] at h
        dsimp only at h
        have : nodesLookup idx id = none := by
          unfold nodesLookup
          rw [h]; rfl
        rw [this] at hlk
        exact absurd hlk (by simp)
      · rw [hent] at h
        dsimp only at h
        obtain ⟨hne0, h2⟩ := h
        unfold nodesLookup at h2
        rcases hle : idx.nodes.lookup e with _ | en
        · rw [hle] at h2
          dsimp only at h2
        · rw [hle] at h2
          dsimp only at h2
          have heid : e ≠ id := by
            intro heq
            rw [hE2, hent, heq] at hcond
            exact hcond rfl
          have hl1 : IDX1.nodes.lookup e = some en := by
            rw [hIDX1]
            dsimp only
            rw [lookup_filter_ne idx.nodes e id heid]
            exact hle
          have hlay := lookup_layer_eq IDX2.nodes IDX1.nodes
            (by
              have := hsk.1
              unfold nodeLayers at this
              exact this) e
          rw [hl1] at hlay
          rcases hl2 : IDX2.nodes.lookup e with _ | en2
          · rw [hl2] at hlay
            simp at hlay
          · rw [hl2] at hlay
            have hlayeq : en2.layer = en.layer := by simpa using hlay
            unfold entryMax
            dsimp only
            rw [hE2, hent]
            refine ⟨?_, ?_⟩
            · intro hnil
              have : e ∈ IDX2.nodes.map Prod.fst :=
                (lookup_isSome_iff_mem_keys IDX2.nodes e).mp (by rw [hl2]; rfl)
              rw [hnil] at this
              simp at this
            · unfold nodesLookup
              dsimp only
              rw [hl2]
              intro p hp
              obtain ⟨q, hq, hqe⟩ := mem_layer_transfer IDX1.nodes IDX2.nodes
                (by
                  have := hsk.1.symm
                  unfold nodeLayers at this
                  exact this) p hp
              have hq' : q ∈ idx.nodes := by
                rw [hIDX1] at hq
                exact List.mem_of_mem_filter hq
              rw [hlayeq, ← hqe]
              exact h2 q hq'

/-- C8: in `hnsw.rs`, after any sequence of `add` and `remove` calls
starting from the empty index, the entry point exists iff the node set is
non-empty, and the entry point's layer is the maximum layer over all
nodes.  (The `lib.rs` revision of `HnswIndex::remove` violates the
maximality part — see the counterexample.) -/
theorem C8_entry_invariant (idx : HnswIndex) (h : HnswReachable idx) :
    (idx.entry = none ↔ idx.nodes = []) ∧
    (∀ e, idx.entry = some e → ∃ en, nodesLookup idx e = some en ∧
      ∀ p ∈ idx.nodes, p.2.layer ≤ en.layer) := by
  have hm : ((idx.nodes.map Prod.fst).Nodup) ∧ entryMax idx := by
    induction h with
    | new =>
      refine ⟨by simp, ?_⟩
      exact rfl
    | add s idx id vector lvl hr ih =>
      exact hnswAdd_wf s idx id vector lvl ih.1 ih.2
    | remove idx id hr ih =>
      exact hnswRemove_wf idx id ih.1 ih.2
  have hM := hm.2
  unfold entryMax at hM
  rcases hent : idx.entry with _ | e
  · rw [hent] at hM
    dsimp only at hM
    refine ⟨⟨fun _ => hM, fun _ => rfl⟩, ?_⟩
    intro e' he'
    exact absurd he' (by simp)
  · rw [hent] at hM
    dsimp only at hM
    obtain ⟨hne, h2⟩ := hM
    rcases hle : nodesLookup idx e with _ | en
    · rw [hle] at h2
      exact (h2 : False).elim
    · rw [hle] at h2
      dsimp only at h2
      refine ⟨⟨fun hno => by simp at hno, fun hnil => absurd hnil hne⟩, ?_⟩
      intro e' he'
      obtain rfl : e = e' := by injection he'
      exact ⟨en, hle, h2⟩

theorem C8_entry_invariant_witness :
    ((hnswRemove (hnswAdd (fun x => x) { nodes := [], entry := none } 0 [1]
        2).1 0).1.entry = none ↔
      (hnswRemove (hnswAdd (fun x => x) { nodes := [], entry := none } 0 [1]
        2).1 0).1.nodes = []) ∧
    (∀ e, (hnswRemove (hnswAdd (fun x => x) { nodes := [], entry := none } 0
        [1] 2).1 0).1.entry = some e →
      ∃ en, nodesLookup (hnswRemove (hnswAdd (fun x => x)
          { nodes := [], entry := none } 0 [1] 2).1 0).1 e = some en ∧
        ∀ p ∈ (hnswRemove (hnswAdd (fun x => x) { nodes := [], entry := none }
            0 [1] 2).1 0).1.nodes, p.2.layer ≤ en.layer) :=
  C8_entry_invariant _
    (HnswReachable.remove _ 0
      (HnswReachable.add (fun x => x) _ 0 [1] 2 HnswReachable.new))

/-- C8 counterexample: the `lib.rs` revision of `HnswIndex::remove` replaces
a removed entry point by the first remaining node of the map iteration, not
by a node of maximal layer: removing entry node 2 (layer 5) from
`c8LibIndex` succeeds but leaves entry node 0 (layer 0) while node 1
(layer 2) remains, so the entry-maximality invariant fails. -/
theorem C8_lib_remove_counterexample :
    libEntryMaxCheck c8LibIndex = true ∧
    (lib_hnsw_remove c8LibIndex 2).2 = none ∧
    (lib_hnsw_remove c8LibIndex 2).1.entry_point = some 0 ∧
    libNodesLookup (lib_hnsw_remove c8LibIndex 2).1 1 =
      some { vector := [2], connections := [[0], [], []], layer := 2 } ∧
    libEntryMaxCheck (lib_hnsw_remove c8LibIndex 2).1 = false := by
  refine ⟨by decide, by decide, by decide, by decide, by decide⟩

theorem filter_mono_length {α : Type} (l : List α) (p q : α → Bool)
    (h : ∀ a, p a = true → q a = true) :
    (l.filter p).length ≤ (l.filter q).length := by
  induction l with
  | nil => simp
  | cons x t ih =>
    rw [List.filter_cons, List.filter_cons]
    by_cases hp : p x = true
    · rw [if_pos hp, if_pos (h x hp)]
      simpa using ih
    · rw [if_neg hp]
      by_cases hq : q x = true
      · rw [if_pos hq]
        exact le_trans ih (by simp)
      · rw [if_neg hq]
        exact ih

theorem filter_length_lt {α : Type} (l : List α) (p q : α → Bool)
    (h : ∀ a, p a = true → q a = true) (x : α) (hx : x ∈ l)
    (hqx : q x = true) (hpx : p x = false) :
    (l.filter p).length < (l.filter q).length := by
  induction l with
  | nil => cases hx
  | cons y t ih =>
    rw [List.filter_cons, List.filter_cons]
    rcases List.mem_cons.mp hx with rfl | hxt
    · rw [if_neg (by simp [hpx]), if_pos hqx]
      simp only [List.length_cons]
      exact Nat.lt_succ_of_le (filter_mono_length t p q h)
    · by_cases hp : p y = true
      · rw [if_pos hp, if_pos (h y hp)]
        simpa using ih hxt
      · rw [if_neg hp]
        by_cases hq : q y = true
        · rw [if_pos hq]
          exact Nat.lt_succ_of_lt (ih hxt)
        · rw [if_neg hq]
          exact ih hxt

theorem unvisited_cons_le (idx : HnswIndex) (nb : Nat) (visited : List Nat) :
    unvisitedCount idx (nb :: visited) ≤ unvisitedCount idx visited := by
  unfold unvisitedCount
  refine filter_mono_length _ _ _ ?_
  intro a ha
  simp only [decide_eq_true_eq] at ha ⊢
  intro hm
  exact ha (List.mem_cons_of_mem _ hm)

theorem unvisited_cons_lt (idx : HnswIndex) (nb : Nat) (visited : List Nat)
    (hmem : nb ∈ idx.nodes.map Prod.fst) (hnv : nb ∉ visited) :
    unvisitedCount idx (nb :: visited) + 1 ≤ unvisitedCount idx visited := by
  unfold unvisitedCount
  refine Nat.succ_le_of_lt (filter_length_lt _ _ _ ?_ nb hmem ?_ ?_)
  · intro a ha
    simp only [decide_eq_true_eq] at ha ⊢
    intro hm
    exact ha (List.mem_cons_of_mem _ hm)
  · simpa using hnv
  · simp

theorem popMinD_eq_none (l : List (Nat × ℚ)) (h : popMinD l = none) : l = [] := by
  cases l with
  | nil => rfl
  | cons x xs =>
    rw [popMinD] at h
    rcases hx : popMinD xs with _ | p
    · rw [hx] at h
      simp at h
    · rw [hx] at h
      dsimp only at h
      split_ifs at h

theorem popMinD_length :
    ∀ (l : List (Nat × ℚ)) (m : Nat × ℚ) (rest : List (Nat × ℚ)),
      popMinD l = some (m, rest) → rest.length + 1 = l.length := by
  intro l
  induction l with
  | nil => intro m rest h; simp [popMinD] at h
  | cons x xs ih =>
    intro m rest h
    rw [popMinD] at h
    rcases hx : popMinD xs with _ | p
    · rw [hx] at h
      dsimp only at h
      have hnil := popMinD_eq_none xs hx
      injection h with h1
      injection h1 with h2 h3
      rw [← h3, hnil]
      simp
    · rcases p with ⟨m', rest'⟩
      rw [hx] at h
      dsimp only at h
      split_ifs at h with hle
      · injection h with h1
        injection h1 with h2 h3
        rw [← h3]
        simp
      · injection h with h1
        injection h1 with h2 h3
        have := ih m' rest' hx
        rw [← h3]
        simp only [List.length_cons] at this ⊢
        omega

theorem processNeighbors_measure (s : ℚ → ℚ) (idx : HnswIndex) (q : List ℚ)
    (worst : Option ℚ) (ef : Nat) :
    ∀ (nbs : List Nat) (visited : List Nat) (cand res : List (Nat × ℚ)),
      (processNeighbors s idx q worst ef nbs (visited, cand, res)).2.1.length +
        2 * unvisitedCount idx
          (processNeighbors s idx q worst ef nbs (visited, cand, res)).1 ≤
      cand.length + 2 * unvisitedCount idx visited := by
  intro nbs
  induction nbs with
  | nil => intro visited cand res; exact le_refl _
  | cons nb rest ih =>
    intro visited cand res
    simp only [processNeighbors]
    by_cases hv : nb ∈ visited
    · rw [if_pos hv]
      exact ih visited cand res
    · rw [if_neg hv]
      rcases hlk : nodesLookup idx nb with _ | nbNode
      · exact le_trans (ih (nb :: visited) cand res)
          (by have := unvisited_cons_le idx nb visited; omega)
      · dsimp only
        by_cases hpc : pushCond res.length ef
            (simd_euclidean_distance s nbNode.vector q) worst = true
        · rw [if_pos hpc]
          have hmem : nb ∈ idx.nodes.map Prod.fst := by
            refine (lookup_isSome_iff_mem_keys idx.nodes nb).mp ?_
            unfold nodesLookup at hlk
            rw [hlk]; rfl
          have hlt := unvisited_cons_lt idx nb visited hmem hv
          refine le_trans (ih (nb :: visited)
            ((nb, simd_euclidean_distance s nbNode.vector q) :: cand) _) ?_
          simp only [List.length_cons]
          omega
        · rw [if_neg hpc]
          exact le_trans (ih (nb :: visited) cand res)
            (by have := unvisited_cons_le idx nb visited; omega)

theorem searchLayerGo_some (s : ℚ → ℚ) (idx : HnswIndex) (q : List ℚ)
    (layer ef : Nat) :
    ∀ (fuel : Nat) (cand res : List (Nat × ℚ)) (visited : List Nat),
      cand.length + 2 * unvisitedCount idx visited < fuel →
      (searchLayerGo s idx q layer ef fuel cand res visited).isSome = true := by
  intro fuel
  induction fuel with
  | zero => intro cand res visited h; omega
  | succ fuel ih =>
    intro cand res visited h
    rw [searchLayerGo]
    rcases hp : popMinD cand with _ | p
    · rfl
    · rcases p with ⟨cur, cand'⟩
      dsimp only
      have hlen := popMinD_length cand cur cand' hp
      by_cases hg : gtWorst cur.2 (minDist? res) = true
      · rw [if_pos hg]
        rfl
      · rw [if_neg hg]
        rcases hlk : nodesLookup idx cur.1 with _ | node
        · exact ih cand' res visited (by omega)
        · dsimp only
          by_cases hcl : node.connections.length ≤ layer
          · rw [if_pos hcl]
            exact ih cand' res visited (by omega)
          · rw [if_neg hcl]
            have hm := processNeighbors_measure s idx q (minDist? res) ef
              (node.connections.getD layer []) visited cand' res
            exact ih _ _ _ (by omega)

theorem search_layer_some (s : ℚ → ℚ) (idx : HnswIndex) (q : List ℚ)
    (entry layer ef : Nat) :
    (search_layer s idx q entry layer ef).isSome = true := by
  unfold search_layer
  rcases hlk : nodesLookup idx entry with _ | en
  · rfl
  · dsimp only
    have hb : unvisitedCount idx [entry] ≤ idx.nodes.length := by
      unfold unvisitedCount
      calc ((idx.nodes.map Prod.fst).filter (fun k => k ∉ [entry])).length ≤
          (idx.nodes.map Prod.fst).length := List.length_filter_le _ _
        _ = idx.nodes.length := List.length_map _ _
    have hgo := searchLayerGo_some s idx q layer ef (searchLayerFuel idx)
      [(entry, simd_euclidean_distance s en.vector q)]
      [(entry, simd_euclidean_distance s en.vector q)] [entry]
      (by unfold searchLayerFuel; simp only [List.length_singleton]; omega)
    rcases hr : searchLayerGo s idx q layer ef (searchLayerFuel idx)
        [(entry, simd_euclidean_distance s en.vector q)]
        [(entry, simd_euclidean_distance s en.vector q)] [entry] with _ | r
    · rw [hr] at hgo
      simp at hgo
    · rfl

theorem mem_of_lookup_hnsw :
    ∀ (l : List (Nat × HnswNode)) (k : Nat) (v : HnswNode),
      l.lookup k = some v → (k, v) ∈ l := by
  intro l
  induction l with
  | nil => intro k v h; simp [List.lookup] at h
  | cons x t ih =>
    intro k v h
    rcases x with ⟨a, b⟩
    by_cases hk : k = a
    · subst hk
      simp [List.lookup] at h
      rw [← h]
      exact List.mem_cons_self _ _
    · have hb : (k == a) = false := by simpa using hk
      simp only [List.lookup, hb] at h
      exact List.mem_cons_of_mem _ (ih k v h)

theorem descendFold_spec (s : ℚ → ℚ) (idx : HnswIndex) (q : List ℚ) :
    ∀ (neigh : List Nat) (acc : (Nat × ℚ) × Bool) (d0 : ℚ),
      (acc.2 = true → acc.1.2 < d0 ∧ ∃ p ∈ idx.nodes,
        simd_euclidean_distance s p.2.vector q = acc.1.2) →
      acc.1.2 ≤ d0 →
      ((neigh.foldl
          (fun (acc : (Nat × ℚ) × Bool) nb =>
            match nodesLookup idx nb with
            | none => acc
            | some nbNode =>
              let d := simd_euclidean_distance s nbNode.vector q
              if d < acc.1.2 then ((nb, d), true) else acc)
          acc).2 = true →
        (neigh.foldl
          (fun (acc : (Nat × ℚ) × Bool) nb =>
            match nodesLookup idx nb with
            | none => acc
            | some nbNode =>
              let d := simd_euclidean_distance s nbNode.vector q
              if d < acc.1.2 then ((nb, d), true) else acc)
          acc).1.2 < d0 ∧ ∃ p ∈ idx.nodes,
          simd_euclidean_distance s p.2.vector q =
            (neigh.foldl
              (fun (acc : (Nat × ℚ) × Bool) nb =>
                match nodesLookup idx nb with
                | none => acc
                | some nbNode =>
                  let d := simd_euclidean_distance s nbNode.vector q
                  if d < acc.1.2 then ((nb, d), true) else acc)
              acc).1.2) ∧
      (neigh.foldl
        (fun (acc : (Nat × ℚ) × Bool) nb =>
          match nodesLookup idx nb with
          | none => acc
          | some nbNode =>
            let d := simd_euclidean_distance s nbNode.vector q
            if d < acc.1.2 then ((nb, d), true) else acc)
        acc).1.2 ≤ d0 := by
  intro neigh
  induction neigh with
  | nil => intro acc d0 h1 h2; exact ⟨h1, h2⟩
  | cons nb t ih =>
    intro acc d0 h1 h2
    simp only [List.foldl_cons]
    rcases hlk : nodesLookup idx nb with _ | nbNode
    · exact ih acc d0 h1 h2
    · dsimp only
      by_cases hd : simd_euclidean_distance s nbNode.vector q < acc.1.2
      · rw [if_pos hd]
        refine ih ((nb, simd_euclidean_distance s nbNode.vector q), true) d0
          ?_ (le_of_lt (lt_of_lt_of_le hd h2))
        intro _
        refine ⟨lt_of_lt_of_le hd h2, ⟨(nb, nbNode), ?_, rfl⟩⟩
        exact mem_of_lookup_hnsw idx.nodes nb nbNode
          (by unfold nodesLookup at hlk; exact hlk)
      · rw [if_neg hd]
        exact ih acc d0 h1 h2

theorem descendPass_moved (s : ℚ → ℚ) (idx : HnswIndex) (q : List ℚ)
    (layer : Nat) (st st' : Nat × ℚ)
    (h : descendPass s idx q layer st = (st', true)) :
    st'.2 < st.2 ∧ ∃ p ∈ idx.nodes,
      simd_euclidean_distance s p.2.vector q = st'.2 := by
  unfold descendPass at h
  rcases hlk : nodesLookup idx st.1 with _ | node
  · rw [hlk] at h
    dsimp only at h
    injection h with h1 h2
    exact absurd h2 (by simp)
  · rw [hlk] at h
    dsimp only at h
    have hf := descendFold_spec s idx q
      (if layer < node.connections.length then node.connections.getD layer []
        else [])
      (st, false) st.2 (by intro hc; exact absurd hc (by simp)) (le_refl _)
    rw [h] at hf
    dsimp only at hf
    exact hf.1 rfl

theorem descendLoop_some (s : ℚ → ℚ) (idx : HnswIndex) (q : List ℚ)
    (layer : Nat) :
    ∀ (fuel : Nat) (st : Nat × ℚ),
      closerCount s idx q st.2 < fuel →
      (descendLoop s idx q layer fuel st).isSome = true := by
  intro fuel
  induction fuel with
  | zero => intro st h; omega
  | succ fuel ih =>
    intro st h
    rw [descendLoop]
    rcases hdp : descendPass s idx q layer st with ⟨st', moved⟩
    dsimp only
    cases moved with
    | false => rfl
    | true =>
      obtain ⟨hlt, p, hp, hpd⟩ := descendPass_moved s idx q layer st st' hdp
      have hcc : closerCount s idx q st'.2 < closerCount s idx q st.2 := by
        unfold closerCount
        refine filter_length_lt _ _ _ ?_ p hp ?_ ?_
        · intro a ha
          simp only [decide_eq_true_eq] at ha ⊢
          exact lt_trans ha hlt
        · simp only [decide_eq_true_eq]
          rw [hpd]
          exact hlt
        · simp only [decide_eq_false_iff_not]
          rw [hpd]
          exact lt_irrefl _
      exact ih st' (by omega)

theorem descendLayers_some (s : ℚ → ℚ) (idx : HnswIndex) (q : List ℚ) :
    ∀ (layers : List Nat) (st : Nat × ℚ),
      (descendLayers s idx q layers st).isSome = true := by
  intro layers
  induction layers with
  | nil => intro st; rfl
  | cons layer rest ih =>
    intro st
    rw [descendLayers]
    have hb : closerCount s idx q st.2 < descendFuel idx := by
      unfold closerCount descendFuel
      have hle := List.length_filter_le
        (fun p => decide (simd_euclidean_distance s p.2.vector q < st.2))
        idx.nodes
      omega
    have hs := descendLoop_some s idx q layer (descendFuel idx) st hb
    rcases hd : descendLoop s idx q layer (descendFuel idx) st with _ | st'
    · rw [hd] at hs
      simp at hs
    · exact ih st'

/-- C10: `hnsw.rs::HnswIndex::search` terminates on every index state and
every query: the fuelled model `hnswSearchF`, whose fuel bounds are the
visited-set measure for the beam search of `search_layer` and the
strictly-decreasing best-distance measure for each greedy-descent loop,
never exhausts its fuel (`none` is never returned). -/
theorem C10_search_terminates (s : ℚ → ℚ) (idx : HnswIndex) (q : List ℚ)
    (k : Nat) : (hnswSearchF s idx q k).isSome = true := by
  unfold hnswSearchF
  rcases idx.entry with _ | ep
  · rfl
  · dsimp only
    rcases hlk : nodesLookup idx ep with _ | en
    · rfl
    · dsimp only
      have hdl := descendLayers_some s idx q (upperLayers en.layer)
        (ep, simd_euclidean_distance s en.vector q)
      rcases hd : descendLayers s idx q (upperLayers en.layer)
          (ep, simd_euclidean_distance s en.vector q) with _ | st
      · rw [hd] at hdl
        simp at hdl
      · dsimp only
        have hsl := search_layer_some s idx q st.1 0 EF_SEARCH
        rcases hs : search_layer s idx q st.1 0 EF_SEARCH with _ | best
        · rw [hs] at hsl
          simp at hsl
        · rfl

theorem clamp_0_1_nonneg (x : ℚ) : 0 ≤ clamp_0_1 x := by
  unfold clamp_0_1
  split_ifs with h1 h2
  · exact le_refl 0
  · exact zero_le_one
  · exact le_of_not_lt h1

theorem clamp_0_1_le_one (x : ℚ) : clamp_0_1 x ≤ 1 := by
  unfold clamp_0_1
  split_ifs with h1 h2
  · exact zero_le_one
  · exact le_refl 1
  · exact le_of_not_lt h2

theorem clamp_0_1_mono (x y : ℚ) (h : x ≤ y) : clamp_0_1 x ≤ clamp_0_1 y := by
  unfold clamp_0_1
  split_ifs with h1 h2 h3 h4 <;> linarith

theorem div_le_div_nonneg_denom (a b L : ℚ) (h : a ≤ b) (hL : 0 ≤ L) :
    a / L ≤ b / L := by
  rcases eq_or_lt_of_le hL with h0 | h0
  · rw [← h0]
    simp
  · exact (div_le_div_iff_of_pos_right h0).mpr h

theorem one_div_one_add_antitone (a b : ℚ) (ha : 0 ≤ a) (h : a ≤ b) :
    1 / (1 + b) ≤ 1 / (1 + a) := by
  have h1 : (0 : ℚ) < 1 + a := by linarith
  have h2 : (0 : ℚ) < 1 + b := by linarith
  exact one_div_le_one_div_of_le h1 (by linarith)

theorem one_div_one_add_nonneg (a : ℚ) (ha : 0 ≤ a) : 0 ≤ 1 / (1 + a) := by
  have h1 : (0 : ℚ) < 1 + a := by linarith
  positivity

theorem one_div_one_add_le_one (a : ℚ) (ha : 0 ≤ a) : 1 / (1 + a) ≤ 1 := by
  have h1 : (0 : ℚ) < 1 + a := by linarith
  rw [div_le_one h1]
  linarith

theorem sumSq_nonneg (v : List ℚ) : 0 ≤ sumSq v := by
  unfold sumSq
  refine List.sum_nonneg ?_
  intro x hx
  obtain ⟨y, _, rfl⟩ := List.mem_map.mp hx
  exact mul_self_nonneg y

theorem dot_sq_le_sumSq :
    ∀ (a b : List ℚ), simd_dot_product a b * simd_dot_product a b ≤
      sumSq a * sumSq b := by
  intro a
  induction a with
  | nil =>
    intro b
    simp [simd_dot_product, sumSq]
  | cons x a' ih =>
    intro b
    cases b with
    | nil =>
      simp [simd_dot_product]
      exact mul_nonneg (sumSq_nonneg _) (sumSq_nonneg _)
    | cons y b' =>
      have hA := sumSq_nonneg a'
      have hB := sumSq_nonneg b'
      have hD := ih b'
      have hdot : simd_dot_product (x :: a') (y :: b') =
          x * y + simd_dot_product a' b' := by
        simp [simd_dot_product]
      have hsa : sumSq (x :: a') = x * x + sumSq a' := by
        simp [sumSq]
      have hsb : sumSq (y :: b') = y * y + sumSq b' := by
        simp [sumSq]
      rw [hdot, hsa, hsb]
      set A := sumSq a'
      set B := sumSq b'
      set D := simd_dot_product a' b'
      rcases eq_or_lt_of_le hA with hA0 | hA0
      · have hD0 : D = 0 := by nlinarith [mul_self_nonneg D]
        rw [hD0]
        nlinarith [mul_self_nonneg x, mul_self_nonneg y]
      · nlinarith [mul_self_nonneg (x * D - y * A),
          mul_nonneg (mul_self_nonneg x) (sub_nonneg.mpr hD),
          mul_nonneg (le_of_lt hA0) (sub_nonneg.mpr hD)]

theorem dot_abs_le_one (a b : List ℚ) (ha : sumSq a ≤ 1) (hb : sumSq b ≤ 1) :
    -1 ≤ simd_dot_product a b ∧ simd_dot_product a b ≤ 1 := by
  have h := dot_sq_le_sumSq a b
  have hA := sumSq_nonneg a
  have hB := sumSq_nonneg b
  have h1 : simd_dot_product a b * simd_dot_product a b ≤ 1 := by nlinarith
  constructor
  · nlinarith [mul_self_nonneg (simd_dot_product a b + 1)]
  · nlinarith [mul_self_nonneg (simd_dot_product a b - 1)]

theorem popMinD_rest_subset :
    ∀ (l : List (Nat × ℚ)) (m : Nat × ℚ) (rest : List (Nat × ℚ)),
      popMinD l = some (m, rest) → ∀ x ∈ rest, x ∈ l := by
  intro l
  induction l with
  | nil => intro m rest h; simp [popMinD] at h
  | cons a xs ih =>
    intro m rest h x hx
    rw [popMinD] at h
    rcases hx2 : popMinD xs with _ | p
    · rw [hx2] at h
      dsimp only at h
      injection h with h1
      injection h1 with h2 h3
      rw [← h3] at hx
      simp at hx
    · rcases p with ⟨m', rest'⟩
      rw [hx2] at h
      dsimp only at h
      split_ifs at h with hle
      · injection h with h1
        injection h1 with h2 h3
        rw [← h3] at hx
        exact List.mem_cons_of_mem _ hx
      · injection h with h1
        injection h1 with h2 h3
        rw [← h3] at hx
        rcases List.mem_cons.mp hx with rfl | hx'
        · exact List.mem_cons_self _ _
        · exact List.mem_cons_of_mem _ (ih m' rest' hx2 x hx')

theorem evictMin_subset (l : List (Nat × ℚ)) : ∀ x ∈ evictMin l, x ∈ l := by
  unfold evictMin
  rcases hp : popMinD l with _ | p
  · simp
  · rcases p with ⟨m, rest⟩
    intro x hx
    exact popMinD_rest_subset l m rest hp x hx

theorem processNeighbors_nonneg (s : ℚ → ℚ) (idx : HnswIndex) (q : List ℚ)
    (worst : Option ℚ) (ef : Nat) (hs : ∀ x, 0 ≤ s x) :
    ∀ (nbs : List Nat) (visited : List Nat) (cand res : List (Nat × ℚ)),
      (∀ p ∈ cand, 0 ≤ p.2) → (∀ p ∈ res, 0 ≤ p.2) →
      (∀ p ∈ (processNeighbors s idx q worst ef nbs (visited, cand, res)).2.1,
        0 ≤ p.2) ∧
      (∀ p ∈ (processNeighbors s idx q worst ef nbs (visited, cand, res)).2.2,
        0 ≤ p.2) := by
  intro nbs
  induction nbs with
  | nil => intro visited cand res hc hr; exact ⟨hc, hr⟩
  | cons nb rest ih =>
    intro visited cand res hc hr
    simp only [processNeighbors]
    by_cases hv : nb ∈ visited
    · rw [if_pos hv]
      exact ih visited cand res hc hr
    · rw [if_neg hv]
      rcases hlk : nodesLookup idx nb with _ | nbNode
      · exact ih (nb :: visited) cand res hc hr
      · dsimp only
        by_cases hpc : pushCond res.length ef
            (simd_euclidean_distance s nbNode.vector q) worst = true
        · rw [if_pos hpc]
          refine ih (nb :: visited) _ _ ?_ ?_
          · intro p hp
            rcases List.mem_cons.mp hp with rfl | hp'
            · exact hs _
            · exact hc p hp'
          · intro p hp
            have hmem : p ∈ (nb, simd_euclidean_distance s nbNode.vector q)
                :: res := by
              by_cases hlen :
                  ((nb, simd_euclidean_distance s nbNode.vector q)
                    :: res).length > ef
              · rw [if_pos hlen] at hp
                exact evictMin_subset _ p hp
              · rw [if_neg hlen] at hp
                exact hp
            rcases List.mem_cons.mp hmem with rfl | hp'
            · exact hs _
            · exact hr p hp'
        · rw [if_neg hpc]
          exact ih (nb :: visited) cand res hc hr

theorem searchLayerGo_nonneg (s : ℚ → ℚ) (idx : HnswIndex) (q : List ℚ)
    (layer ef : Nat) (hs : ∀ x, 0 ≤ s x) :
    ∀ (fuel : Nat) (cand res : List (Nat × ℚ)) (visited : List Nat)
      (out : List (Nat × ℚ)),
      searchLayerGo s idx q layer ef fuel cand res visited = some out →
      (∀ p ∈ cand, 0 ≤ p.2) → (∀ p ∈ res, 0 ≤ p.2) →
      ∀ p ∈ out, 0 ≤ p.2 := by
  intro fuel
  induction fuel with
  | zero => intro cand res visited out h hc hr; simp [searchLayerGo] at h
  | succ fuel ih =>
    intro cand res visited out h hc hr
    rw [searchLayerGo] at h
    rcases hp : popMinD cand with _ | pr
    · rw [hp] at h
      dsimp only at h
      injection h with h1
      rw [← h1]
      exact hr
    · rcases pr with ⟨cur, cand'⟩
      rw [hp] at h
      dsimp only at h
      have hcand' : ∀ p ∈ cand', 0 ≤ p.2 := fun p hp' =>
        hc p (popMinD_rest_subset cand cur cand' hp p hp')
      split_ifs at h with hg
      · injection h with h1
        rw [← h1]
        exact hr
      · rcases hlk : nodesLookup idx cur.1 with _ | node
        · rw [hlk] at h
          exact ih cand' res visited out h hcand' hr
        · rw [hlk] at h
          dsimp only at h
          split_ifs at h with hcl
          · exact ih cand' res visited out h hcand' hr
          · obtain ⟨hpc, hpr⟩ := processNeighbors_nonneg s idx q (minDist? res)
              ef hs (node.connections.getD layer []) visited cand' res hcand' hr
            exact ih _ _ _ out h hpc hpr

theorem search_layer_nonneg (s : ℚ → ℚ) (idx : HnswIndex) (q : List ℚ)
    (entry layer ef : Nat) (hs : ∀ x, 0 ≤ s x) (out : List (Nat × ℚ))
    (h : search_layer s idx q entry layer ef = some out) :
    ∀ p ∈ out, 0 ≤ p.2 := by
  unfold search_layer at h
  rcases hlk : nodesLookup idx entry with _ | en
  · rw [hlk] at h
    dsimp only at h
    injection h with h1
    rw [← h1]
    simp
  · rw [hlk] at h
    dsimp only at h
    rcases hr : searchLayerGo s idx q layer ef (searchLayerFuel idx)
        [(entry, simd_euclidean_distance s en.vector q)]
        [(entry, simd_euclidean_distance s en.vector q)] [entry] with _ | res0
    · rw [hr] at h
      simp at h
    · rw [hr] at h
      dsimp only [Option.map] at h
      injection h with h1
      intro p hp
      rw [← h1] at hp
      have hmem : p ∈ res0 := (List.perm_insertionSort _ res0).mem_iff.mp hp
      have hinit : ∀ p' ∈ [(entry, simd_euclidean_distance s en.vector q)],
          0 ≤ p'.2 := by
        intro p' hp'
        simp only [List.mem_singleton] at hp'
        subst hp'
        exact hs _
      exact searchLayerGo_nonneg s idx q layer ef hs (searchLayerFuel idx)
        _ _ _ res0 hr hinit hinit p hmem

theorem hnswSearchF_props (s : ℚ → ℚ) (idx : HnswIndex) (q : List ℚ) (k : Nat)
    (hs : ∀ x, 0 ≤ s x) (out : List (Nat × ℚ))
    (h : hnswSearchF s idx q k = some out) :
    (∀ p ∈ out, 0 ≤ p.2) ∧
    out.Pairwise (fun a b : Nat × ℚ => a.2 ≤ b.2) := by
  haveI : IsTotal (Nat × ℚ) (fun a b : Nat × ℚ => a.2 ≤ b.2) :=
    ⟨fun a b => le_total a.2 b.2⟩
  haveI : IsTrans (Nat × ℚ) (fun a b : Nat × ℚ => a.2 ≤ b.2) :=
    ⟨fun a b c => le_trans⟩
  unfold hnswSearchF at h
  rcases hE : idx.entry with _ | ep
  · rw [hE] at h
    dsimp only at h
    injection h with h1
    rw [← h1]
    exact ⟨by simp, by simp⟩
  · rw [hE] at h
    dsimp only at h
    rcases hlk : nodesLookup idx ep with _ | en
    · rw [hlk] at h
      dsimp only at h
      injection h with h1
      rw [← h1]
      exact ⟨by simp, by simp⟩
    · rw [hlk] at h
      dsimp only at h
      rcases hd : descendLayers s idx q (upperLayers en.layer)
          (ep, simd_euclidean_distance s en.vector q) with _ | st
      · rw [hd] at h
        simp at h
      · rw [hd] at h
        dsimp only at h
        rcases hsl : search_layer s idx q st.1 0 EF_SEARCH with _ | best
        · rw [hsl] at h
          simp at h
        · rw [hsl] at h
          dsimp only at h
          injection h with h1
          rw [← h1]
          constructor
          · intro p hp
            have hp1 : p ∈ best.insertionSort (fun a b : Nat × ℚ => a.2 ≤ b.2) :=
              List.take_subset _ _ hp
            have hp2 : p ∈ best :=
              (List.perm_insertionSort _ best).mem_iff.mp hp1
            exact search_layer_nonneg s idx q st.1 0 EF_SEARCH hs best hsl p hp2
          · exact (List.sorted_insertionSort _ best).sublist
              (List.take_sublist _ _)

theorem brute_l2_dot_cos_props (s e : ℚ → ℚ) (c : Collection) (q : List ℚ)
    (k : Nat)
    (hsc : ∀ r, r < c.row_count →
      0 ≤ bruteScore s e c q (normalize_vec s q) (c.vector_slice r) ∧
      bruteScore s e c q (normalize_vec s q) (c.vector_slice r) ≤ 1)
    (res : List (String × ℚ))
    (hres : brute_l2_dot_cos s e c q k = Except.ok res) :
    (∀ p ∈ res, 0 ≤ p.2 ∧ p.2 ≤ 1) ∧
    res.Pairwise (fun a b : String × ℚ => b.2 ≤ a.2) := by
  haveI : IsTotal (Nat × ℚ) (fun a b : Nat × ℚ => b.2 ≤ a.2) :=
    ⟨fun a b => le_total b.2 a.2⟩
  haveI : IsTrans (Nat × ℚ) (fun a b : Nat × ℚ => b.2 ≤ a.2) :=
    ⟨fun a b c hab hbc => le_trans hbc hab⟩
  unfold brute_l2_dot_cos at hres
  dsimp only at hres
  injection hres with h1
  have hpairs : ∀ p ∈ (List.range c.row_count).map
      (fun r => (r, bruteScore s e c q (normalize_vec s q) (c.vector_slice r))),
      0 ≤ p.2 ∧ p.2 ≤ 1 := by
    intro p hp
    obtain ⟨r, hr, rfl⟩ := List.mem_map.mp hp
    exact hsc r (List.mem_range.mp hr)
  constructor
  · intro p hp
    rw [← h1] at hp
    obtain ⟨a, ha, hf⟩ := List.mem_filterMap.mp hp
    obtain ⟨v, hv, hpv⟩ := Option.map_eq_some'.mp hf
    have ha2 : a ∈ (List.range c.row_count).map
        (fun r => (r, bruteScore s e c q (normalize_vec s q)
          (c.vector_slice r))) := by
      have ha3 := List.take_subset k _ ha
      exact (List.perm_insertionSort _ _).mem_iff.mp ha3
    have hb := hpairs a ha2
    rw [← hpv]
    exact hb
  · rw [← h1]
    rw [List.pairwise_filterMap]
    refine List.Pairwise.imp ?_
      ((List.sorted_insertionSort _ _).sublist (List.take_sublist _ _))
    intro a b hab x hx y hy
    simp only [Option.mem_def, Option.map_eq_some'] at hx hy
    obtain ⟨vx, _, hvx⟩ := hx
    obtain ⟨vy, _, hvy⟩ := hy
    rw [← hvx, ← hvy]
    exact hab

theorem brute_binary_props (c : Collection) (q : List ℚ) (k : Nat)
    (res : List (String × ℚ))
    (hres : brute_binary c q k = Except.ok res) :
    (∀ p ∈ res, 0 ≤ p.2 ∧ p.2 ≤ 1) ∧
    res.Pairwise (fun a b : String × ℚ => b.2 ≤ a.2) := by
  haveI : IsTotal (Nat × Nat) (fun a b : Nat × Nat => a.2 ≤ b.2) :=
    ⟨fun a b => le_total a.2 b.2⟩
  haveI : IsTrans (Nat × Nat) (fun a b : Nat × Nat => a.2 ≤ b.2) :=
    ⟨fun a b c => le_trans⟩
  unfold brute_binary at hres
  dsimp only at hres
  injection hres with h1
  constructor
  · intro p hp
    rw [← h1] at hp
    obtain ⟨a, ha, hf⟩ := List.mem_filterMap.mp hp
    obtain ⟨v, hv, hpv⟩ := Option.map_eq_some'.mp hf
    rw [← hpv]
    exact ⟨clamp_0_1_nonneg _, clamp_0_1_le_one _⟩
  · rw [← h1]
    rw [List.pairwise_filterMap]
    refine List.Pairwise.imp ?_
      ((List.sorted_insertionSort _ _).sublist (List.take_sublist _ _))
    intro a b hab x hx y hy
    simp only [Option.mem_def, Option.map_eq_some'] at hx hy
    obtain ⟨vx, _, hvx⟩ := hx
    obtain ⟨vy, _, hvy⟩ := hy
    rw [← hvx, ← hvy]
    refine clamp_0_1_mono _ _ ?_
    have hc : ((a.2 : ℚ)) ≤ (b.2 : ℚ) := by exact_mod_cast hab
    have hd := div_le_div_nonneg_denom (a.2 : ℚ) (b.2 : ℚ) (q.length : ℚ) hc
      (by positivity)
    linarith

theorem wrapper_search_list_props (s : ℚ → ℚ) (w : HnswIndexWrapper)
    (q : List ℚ) (k : Nat) (hs : ∀ x, 0 ≤ s x) :
    (∀ p ∈ (hnswSearch s w.index q k).filterMap (fun p =>
        (w.id_map.lookup p.1).map (fun v => (v, clamp_0_1 (1 / (1 + p.2))))),
      0 ≤ p.2 ∧ p.2 ≤ 1) ∧
    ((hnswSearch s w.index q k).filterMap (fun p =>
        (w.id_map.lookup p.1).map
          (fun v => (v, clamp_0_1 (1 / (1 + p.2)))))).Pairwise
      (fun a b : String × ℚ => b.2 ≤ a.2) := by
  constructor
  · intro p hp
    obtain ⟨a, ha, hf⟩ := List.mem_filterMap.mp hp
    obtain ⟨v, hv, hpv⟩ := Option.map_eq_some'.mp hf
    rw [← hpv]
    exact ⟨clamp_0_1_nonneg _, clamp_0_1_le_one _⟩
  · unfold hnswSearch
    rcases hF : hnswSearchF s w.index q k with _ | out0
    · simp
    · dsimp only [Option.getD]
      obtain ⟨hnn, hsorted⟩ := hnswSearchF_props s w.index q k hs out0 hF
      rw [List.pairwise_filterMap]
      have hps : out0.Pairwise
          (fun a b : Nat × ℚ => a.2 ≤ b.2 ∧ 0 ≤ a.2) := by
        refine hsorted.imp_of_mem ?_
        intro a b ha hb hab
        exact ⟨hab, hnn a ha⟩
      refine hps.imp ?_
      intro a b hab x hx y hy
      simp only [Option.mem_def, Option.map_eq_some'] at hx hy
      obtain ⟨vx, _, hvx⟩ := hx
      obtain ⟨vy, _, hvy⟩ := hy
      rw [← hvx, ← hvy]
      refine clamp_0_1_mono _ _ ?_
      exact one_div_one_add_antitone a.2 b.2 hab.2 hab.1

/-- C1: for every collection, query and k, every score that
`similarity_search` returns lies in [0,1] and the returned list is sorted
by score in non-increasing order.  The hypotheses say that the square-root
oracle is non-negative and that, on Cosine collections, the stored rows and
the normalized query are at most unit-norm — both facts of the real
`f32::sqrt` (for Cosine rows `insert` stores `normalize_vec` output, which
either has unit norm or has norm below the machine epsilon). -/
theorem C1_scores_unit_interval_sorted (s e : ℚ → ℚ) (c : Collection)
    (q : List ℚ) (k : Nat) (hs : ∀ x, 0 ≤ s x)
    (hcos : c.distance = Distance.Cosine →
      sumSq (normalize_vec s q) ≤ 1 ∧
      ∀ r, r < c.row_count → sumSq (c.vector_slice r) ≤ 1)
    (res : List (String × ℚ))
    (hres : similarity_search s e c q k = Except.ok res) :
    (∀ p ∈ res, 0 ≤ p.2 ∧ p.2 ≤ 1) ∧
    res.Pairwise (fun a b : String × ℚ => b.2 ≤ a.2) := by
  unfold similarity_search at hres
  rcases hH : c.hnsw with _ | w
  · rw [hH] at hres
    dsimp only at hres
    rcases hdist : c.distance with _ | _ | _ | _ | _
    · rw [hdist] at hres
      refine brute_l2_dot_cos_props s e c q k ?_ res hres
      intro r hr
      unfold bruteScore
      rw [hdist]
      exact ⟨one_div_one_add_nonneg _ (hs _), one_div_one_add_le_one _ (hs _)⟩
    · rw [hdist] at hres
      refine brute_l2_dot_cos_props s e c q k ?_ res hres
      intro r hr
      unfold bruteScore
      rw [hdist]
      dsimp only
      obtain ⟨hq1, hrow⟩ := hcos hdist
      obtain ⟨hlo, hhi⟩ := dot_abs_le_one (c.vector_slice r)
        (normalize_vec s q) (hrow r hr) hq1
      constructor
      · linarith
      · linarith
    · rw [hdist] at hres
      refine brute_l2_dot_cos_props s e c q k ?_ res hres
      intro r hr
      unfold bruteScore
      rw [hdist]
      exact ⟨clamp_0_1_nonneg _, clamp_0_1_le_one _⟩
    · rw [hdist] at hres
      exact Except.noConfusion hres
    · rw [hdist] at hres
      exact brute_binary_props c q k res hres
  · rw [hH] at hres
    dsimp only at hres
    unfold wrapperSearch at hres
    dsimp only [Except.map] at hres
    injection hres with h1
    obtain ⟨hb, hp⟩ := wrapper_search_list_props s w q k hs
    constructor
    · intro p hpm
      rw [← h1] at hpm
      exact hb p (List.take_subset k _ hpm)
    · rw [← h1]
      exact hp.sublist (List.take_sublist _ _)

theorem C1_scores_unit_interval_sorted_witness :
    (∀ p ∈ [(("a" : String), (1 : ℚ))], 0 ≤ p.2 ∧ p.2 ≤ 1) ∧
    List.Pairwise (fun a b : String × ℚ => b.2 ≤ a.2)
      [(("a" : String), (1 : ℚ))] :=
  C1_scores_unit_interval_sorted (fun _ => 0) (fun _ => 0) c3Collection
    [1, 2] 1 (fun x => le_refl 0) (fun h => absurd h (by decide))
    [("a", 1)] (by decide)
